import Mathlib

/-!
# Verification of the `munkres` Hungarian-algorithm package

A shallow embedding of `munkres.go` (package `munkres`), an implementation of
the Hungarian (Kuhn-Munkres) algorithm for the assignment problem, ported from
the Java version by Kevin L. Stern.

Modelling conventions:

* Go `float64` inputs are modelled by `GoFloat`: a finite exact rational, an
  infinity of either sign, or NaN.  The solver itself only ever touches
  validated finite entries, which are modelled as exact rationals (`ℚ`).
* Go slices of fixed length `dim` are modelled as functions `Fin dim → _`.
  Entries of the `int` slices that hold the sentinel `-1` are modelled as `ℤ`.
* Go runtime panics (index out of range) are modelled as `Except.error
  ConstructError.panicIndexOutOfRange` during construction and as `none` in
  the `Option`-valued execution functions.
* The unbounded `for {}` loops of `Execute`, `executePhase` and the augmenting
  walk are modelled with explicit fuel; the theorems below show the supplied
  fuel is never exhausted on states reachable from a successful construction.
-/

namespace Munkres

/-- A Go `float64` as seen by the constructor's validation: a finite value
(modelled as an exact rational), an infinity of either sign, or NaN. -/
inductive GoFloat where
  | finite (q : ℚ)
  | posInf
  | negInf
  | nan
deriving DecidableEq, Repr

/-- `math.IsInf(x, 0)`: `x` is an infinity of either sign. -/
def GoFloat.isInf : GoFloat → Bool
  | .posInf => true
  | .negInf => true
  | _ => false

/-- `math.IsNaN(x)`. -/
def GoFloat.isNaN : GoFloat → Bool
  | .nan => true
  | _ => false

/-- The rational carried by a validated (finite) entry.  The solver only
reads entries that passed validation, so the default on the other
constructors is never observed. -/
def GoFloat.toRat : GoFloat → ℚ
  | .finite q => q
  | _ => 0

/-- Outcomes of `NewHungarianAlgorithm` other than success: the three
`fmt.Errorf` error values, plus the runtime panic raised by an out-of-range
slice index. -/
inductive ConstructError where
  | panicIndexOutOfRange
  | irregularCostMatrix
  | infiniteCost
  | nanCost
deriving DecidableEq, Repr

/-- The message string of each `fmt.Errorf` value returned by
`NewHungarianAlgorithm` (`none` for the runtime panic, which is not an
`error` return value). -/
def ConstructError.message : ConstructError → Option String
  | .panicIndexOutOfRange => none
  | .irregularCostMatrix => some "Irregular cost matrix"
  | .infiniteCost => some "Infinite cost"
  | .nanCost => some "NaN cost"

/-- The solver state (struct `HungarianAlgorithm`).  The Go field `dim` is the
type-level parameter `n`; all slices have length `dim`. -/
structure HungarianAlgorithm (n : ℕ) where
  rows : ℕ
  cols : ℕ
  costMatrix : Fin n → Fin n → ℚ
  labelByWorker : Fin n → ℚ
  labelByJob : Fin n → ℚ
  minSlackWorkerByJob : Fin n → ℤ
  minSlackValueByJob : Fin n → ℚ
  matchJobByWorker : Fin n → ℤ
  matchWorkerByJob : Fin n → ℤ
  parentWorkerByCommittedJob : Fin n → ℤ
  committedWorkers : Fin n → Bool

/-- The rational value of entry `(i, j)` of the input matrix, `0` when out of
range.  This is exactly the content of the internal `dim × dim` matrix after
the constructor's copy loop: row `i` is copied for `i < rows` (its length is
the validated `cols`), and all other cells keep their zero initialisation. -/
def entryQ (m : List (List GoFloat)) (i j : ℕ) : ℚ :=
  (((m[i]?).bind fun row => row[j]?).map GoFloat.toRat).getD 0

/-- The entry validation of the constructor's inner loop, in order:
`math.IsInf` first, then `math.IsNaN`, scanning left to right. -/
def checkEntries : List GoFloat → Option ConstructError
  | [] => none
  | c :: cs =>
    if c.isInf then some .infiniteCost
    else if c.isNaN then some .nanCost
    else checkEntries cs

/-- Validation of one row of the constructor's loop: the length check against
`cols` (`len(costMatrix[0])`) comes first, then the entries. -/
def checkRow (cols : ℕ) (row : List GoFloat) : Option ConstructError :=
  if row.length ≠ cols then some .irregularCostMatrix else checkEntries row

/-- The row-by-row validation of the constructor's loop over `w < rows`;
the first violation in scan order is reported. -/
def validateRows (cols : ℕ) : List (List GoFloat) → Option ConstructError
  | [] => none
  | r :: rs =>
    match checkRow cols r with
    | some e => some e
    | none => validateRows cols rs

/-- `NewHungarianAlgorithm`.  Faithful to the Go source, including its two
panic paths:

* `len(costMatrix[0])` indexes an empty slice when the matrix has no rows;
* the copy loop guard reads `w > len(costMatrix)` (rather than `>=`), so when
  `rows < dim` the iteration `w = rows` falls through the guard and indexes
  `costMatrix[rows]` out of range.  Every error found while validating rows
  `0 .. rows-1` is returned before the loop reaches `w = rows`, hence the
  panic check comes after `validateRows`. -/
def NewHungarianAlgorithm (costMatrix : List (List GoFloat)) :
    Except ConstructError ((n : ℕ) × HungarianAlgorithm n) :=
  match costMatrix with
  | [] => .error .panicIndexOutOfRange
  | row0 :: _ =>
    let rows := costMatrix.length
    let cols := row0.length
    let dim := max rows cols
    match validateRows cols costMatrix with
    | some e => .error e
    | none =>
      if rows < dim then .error .panicIndexOutOfRange
      else
        .ok ⟨dim,
          { rows := rows
            cols := cols
            costMatrix := fun w j => entryQ costMatrix w.val j.val
            labelByWorker := fun _ => 0
            labelByJob := fun _ => 0
            minSlackWorkerByJob := fun _ => 0
            minSlackValueByJob := fun _ => 0
            matchJobByWorker := fun _ => -1
            matchWorkerByJob := fun _ => -1
            parentWorkerByCommittedJob := fun _ => 0
            committedWorkers := fun _ => false }⟩

namespace HungarianAlgorithm

variable {n : ℕ}

/-- One step of the Go idiom `min := math.Inf(1); for x { if x < min { min = x } }`,
with `none` standing for `+Inf`. -/
def infMinStep (acc : Option ℚ) (x : ℚ) : Option ℚ :=
  match acc with
  | none => some x
  | some m => if x < m then some x else some m

/-- The Go idiom `min := math.Inf(1); for x { if x < min { min = x } }`, with
`none` standing for the initial `+Inf`.  Whenever the list is nonempty the
result is `some` of its minimum. -/
def infMinFold (l : List ℚ) : Option ℚ :=
  l.foldl infMinStep none

/-- `reduce`: subtract each row's minimum from the row, then each column's
minimum (of the row-reduced matrix) from the column.  The `.getD 0` default
of the `+Inf`-seeded fold is never taken: a row or column indexed by
`w : Fin n` is nonempty. -/
def reduce (h : HungarianAlgorithm n) : HungarianAlgorithm n :=
  let rowMin : Fin n → ℚ := fun w => (infMinFold (List.ofFn (h.costMatrix w))).getD 0
  let c1 : Fin n → Fin n → ℚ := fun w j => h.costMatrix w j - rowMin w
  let colMin : Fin n → ℚ := fun j => (infMinFold (List.ofFn (fun w => c1 w j))).getD 0
  { h with costMatrix := fun w j => c1 w j - colMin j }

/-- `computeInitialFeasibleSolution`: each job label becomes the minimum cost
among its incident edges (`labelByJob[j]` is seeded with `+Inf` and lowered
over all workers); worker labels are untouched. -/
def computeInitialFeasibleSolution (h : HungarianAlgorithm n) : HungarianAlgorithm n :=
  { h with
    labelByJob := fun j => (infMinFold (List.ofFn (fun w => h.costMatrix w j))).getD 0 }

/-- `match(w, j)`: record a matching between worker `w` and job `j`.
(`match` is a reserved word in Lean, hence the name.) -/
def matchWJ (h : HungarianAlgorithm n) (w j : Fin n) : HungarianAlgorithm n :=
  { h with
    matchJobByWorker := Function.update h.matchJobByWorker w (j.val : ℤ)
    matchWorkerByJob := Function.update h.matchWorkerByJob j (w.val : ℤ) }

/-- The body of the `greedyMatch` double loop at `(w, j)`. -/
def greedyStep (h : HungarianAlgorithm n) (w j : Fin n) : HungarianAlgorithm n :=
  if h.matchJobByWorker w = -1 ∧ h.matchWorkerByJob j = -1 ∧
      h.costMatrix w j - h.labelByWorker w - h.labelByJob j = 0 then
    h.matchWJ w j
  else h

/-- `greedyMatch`: scan all pairs in row-major order, matching any still
unmatched pair joined by a zero-slack edge. -/
def greedyMatch (h : HungarianAlgorithm n) : HungarianAlgorithm n :=
  (List.finRange n).foldl
    (fun s w => (List.finRange n).foldl (fun s' j => greedyStep s' w j) s) h

/-- `fetchUnmatchedWorker`: the first worker with `matchJobByWorker[w] == -1`;
`none` models the Go return value `dim` (no unmatched worker). -/
def fetchUnmatchedWorker (h : HungarianAlgorithm n) : Option (Fin n) :=
  (List.finRange n).find? fun w => h.matchJobByWorker w == -1

/-- `initializePhase(w)`: clear the committed sets and root the slack cache at
worker `w`. -/
def initializePhase (h : HungarianAlgorithm n) (w : Fin n) : HungarianAlgorithm n :=
  { h with
    committedWorkers := Function.update (fun _ => false) w true
    parentWorkerByCommittedJob := fun _ => -1
    minSlackValueByJob := fun j => h.costMatrix w j - h.labelByWorker w - h.labelByJob j
    minSlackWorkerByJob := fun _ => (w.val : ℤ) }

/-- `updateLabeling(slack)`: raise committed workers' labels, lower committed
jobs' labels, and lower the cached slack of uncommitted jobs. -/
def updateLabeling (h : HungarianAlgorithm n) (slack : ℚ) : HungarianAlgorithm n :=
  { h with
    labelByWorker := fun w =>
      if h.committedWorkers w then h.labelByWorker w + slack else h.labelByWorker w
    labelByJob := fun j =>
      if h.parentWorkerByCommittedJob j ≠ -1 then h.labelByJob j - slack else h.labelByJob j
    minSlackValueByJob := fun j =>
      if h.parentWorkerByCommittedJob j ≠ -1 then h.minSlackValueByJob j
      else h.minSlackValueByJob j - slack }

/-- One step of the scan at the top of the `executePhase` loop: job `j` is
considered when it has no parent, and replaces the tracked triple when its
cached slack is strictly smaller. -/
def findMinSlackStep (h : HungarianAlgorithm n) (acc : Option (ℤ × Fin n × ℚ)) (j : Fin n) :
    Option (ℤ × Fin n × ℚ) :=
  if h.parentWorkerByCommittedJob j = -1 then
    match acc with
    | none => some (h.minSlackWorkerByJob j, j, h.minSlackValueByJob j)
    | some (mw, mj, mv) =>
      if h.minSlackValueByJob j < mv then
        some (h.minSlackWorkerByJob j, j, h.minSlackValueByJob j)
      else some (mw, mj, mv)
  else acc

/-- The scan at the top of the `executePhase` loop: over the jobs without a
parent, track the job with the least cached slack together with that slack
and its originating worker.  `none` models the initial
`minSlackJob = -1` / `minSlackValue = +Inf` surviving the whole scan. -/
def findMinSlack (h : HungarianAlgorithm n) : Option (ℤ × Fin n × ℚ) :=
  (List.finRange n).foldl (findMinSlackStep h) none

/-- A Go `int` about to be used as an index into a slice of length `n`;
`none` is an out-of-range index, i.e. a panic. -/
def toIdx (n : ℕ) (i : ℤ) : Option (Fin n) :=
  if h : 0 ≤ i ∧ i.toNat < n then some ⟨i.toNat, h.2⟩ else none

/-- `h.parentWorkerByCommittedJob[minSlackJob] = minSlackWorker` of
`executePhase`. -/
def commitJob (h : HungarianAlgorithm n) (mj : Fin n) (mw : ℤ) : HungarianAlgorithm n :=
  { h with parentWorkerByCommittedJob := Function.update h.parentWorkerByCommittedJob mj mw }

/-- `h.committedWorkers[worker] = true` of `executePhase`. -/
def commitWorker (h : HungarianAlgorithm n) (w : Fin n) : HungarianAlgorithm n :=
  { h with committedWorkers := Function.update h.committedWorkers w true }

/-- The slack-refresh loop of `executePhase` after committing `worker`: for
each parentless job, lower the cached slack to `worker`'s slack when that is
smaller, recording `worker` as its origin. -/
def updateSlacksFor (h : HungarianAlgorithm n) (worker : Fin n) : HungarianAlgorithm n :=
  { h with
    minSlackValueByJob := fun j =>
      if h.parentWorkerByCommittedJob j = -1 ∧
          h.costMatrix worker j - h.labelByWorker worker - h.labelByJob j <
            h.minSlackValueByJob j then
        h.costMatrix worker j - h.labelByWorker worker - h.labelByJob j
      else h.minSlackValueByJob j
    minSlackWorkerByJob := fun j =>
      if h.parentWorkerByCommittedJob j = -1 ∧
          h.costMatrix worker j - h.labelByWorker worker - h.labelByJob j <
            h.minSlackValueByJob j then
        (worker.val : ℤ)
      else h.minSlackWorkerByJob j }

/-- The augmenting-path walk of `executePhase`: repeatedly
`temp := matchJobByWorker[parentWorker]`, `match(parentWorker, committedJob)`,
then continue from `temp` and its parent until `temp` is `-1`.  `none` models
fuel exhaustion or an out-of-range index (a Go panic); the theorems show
neither occurs on reachable states. -/
def augmentWalk : ℕ → HungarianAlgorithm n → Fin n → Fin n → Option (HungarianAlgorithm n)
  | 0, _, _, _ => none
  | fuel + 1, h, committedJob, parentWorker =>
    let temp := h.matchJobByWorker parentWorker
    let h' := h.matchWJ parentWorker committedJob
    if temp = -1 then some h'
    else
      match toIdx n temp with
      | none => none
      | some cj =>
        match toIdx n (h'.parentWorkerByCommittedJob cj) with
        | none => none
        | some pw => augmentWalk fuel h' cj pw

/-- `executePhase`: the phase loop.  Each iteration scans for the least-slack
parentless job, relabels if that slack is positive, commits the job, and
either augments (ending the phase) or commits the job's matched worker and
refreshes the slack cache.  `none` models a panic (`minSlackJob` staying `-1`
or an out-of-range index) or fuel exhaustion. -/
def executePhase : ℕ → HungarianAlgorithm n → Option (HungarianAlgorithm n)
  | 0, _ => none
  | fuel + 1, h =>
    match findMinSlack h with
    | none => none
    | some (minSlackWorker, minSlackJob, minSlackValue) =>
      let h1 := if 0 < minSlackValue then h.updateLabeling minSlackValue else h
      let h2 := h1.commitJob minSlackJob minSlackWorker
      if h2.matchWorkerByJob minSlackJob = -1 then
        match toIdx n (h2.parentWorkerByCommittedJob minSlackJob) with
        | none => none
        | some pw => augmentWalk (n + 1) h2 minSlackJob pw
      else
        match toIdx n (h2.matchWorkerByJob minSlackJob) with
        | none => none
        | some worker => executePhase fuel ((h2.commitWorker worker).updateSlacksFor worker)

/-- The phase loop of `Execute`: while an unmatched worker exists, initialize
and run a phase. -/
def executeLoop : ℕ → HungarianAlgorithm n → Option (HungarianAlgorithm n)
  | 0, _ => none
  | fuel + 1, h =>
    match h.fetchUnmatchedWorker with
    | none => some h
    | some w =>
      match executePhase (n + 1) (h.initializePhase w) with
      | none => none
      | some h' => executeLoop fuel h'

/-- `Execute`: the heuristics, the phase loop, then the result extraction
(`matchJobByWorker[:rows]`, matches to padding jobs `≥ cols` becoming `-1`).
Fuel `n + 1` bounds the number of phases; the theorems show it is never
exhausted on a state produced by a successful construction. -/
def Execute (h : HungarianAlgorithm n) : Option (List ℤ) :=
  let h1 := h.reduce.computeInitialFeasibleSolution.greedyMatch
  match executeLoop (n + 1) h1 with
  | none => none
  | some h2 =>
    some
      (((List.finRange n).map fun w =>
          if h2.matchJobByWorker w ≥ (h2.cols : ℤ) then -1 else h2.matchJobByWorker w).take
        h2.rows)

/-- The solver with the `reduce` heuristic omitted, used to state that the
reduction step is a pure optimization. -/
def ExecuteNoReduce (h : HungarianAlgorithm n) : Option (List ℤ) :=
  let h1 := h.computeInitialFeasibleSolution.greedyMatch
  match executeLoop (n + 1) h1 with
  | none => none
  | some h2 =>
    some
      (((List.finRange n).map fun w =>
          if h2.matchJobByWorker w ≥ (h2.cols : ℤ) then -1 else h2.matchJobByWorker w).take
        h2.rows)

/-! ## Specification-side definitions: invariants, matchings, costs -/

/-- Invariant carried by the accumulator of the minimum-slack scan, relative
to the list of already-processed jobs `seen`. -/
def ScanInv (h : HungarianAlgorithm n) (seen : List (Fin n)) :
    Option (ℤ × Fin n × ℚ) → Prop
  | none => ∀ j ∈ seen, h.parentWorkerByCommittedJob j ≠ -1
  | some (mw, mj, mv) =>
      h.parentWorkerByCommittedJob mj = -1 ∧ mw = h.minSlackWorkerByJob mj ∧
        mv = h.minSlackValueByJob mj ∧
        ∀ j ∈ seen, h.parentWorkerByCommittedJob j = -1 → mv ≤ h.minSlackValueByJob j

/-- The slack of edge `(w, j)`: `cost[w][j] - labelByWorker[w] - labelByJob[j]`. -/
def slackVal (h : HungarianAlgorithm n) (w j : Fin n) : ℚ :=
  h.costMatrix w j - h.labelByWorker w - h.labelByJob j

/-- Dual feasibility: `labelByWorker[w] + labelByJob[j] ≤ cost[w][j]` for all
workers and jobs of the padded square matrix. -/
def DualFeasible (h : HungarianAlgorithm n) : Prop :=
  ∀ w j : Fin n, h.labelByWorker w + h.labelByJob j ≤ h.costMatrix w j

/-- `matchJobByWorker` and `matchWorkerByJob` hold `-1` or an in-range index
and are mutually inverse. -/
structure MatchInv (h : HungarianAlgorithm n) : Prop where
  mjw_cases : ∀ w : Fin n,
    h.matchJobByWorker w = -1 ∨ ∃ j : Fin n, h.matchJobByWorker w = (j.val : ℤ)
  mwj_cases : ∀ j : Fin n,
    h.matchWorkerByJob j = -1 ∨ ∃ w : Fin n, h.matchWorkerByJob j = (w.val : ℤ)
  mjw_mwj : ∀ w j : Fin n,
    h.matchJobByWorker w = (j.val : ℤ) → h.matchWorkerByJob j = (w.val : ℤ)
  mwj_mjw : ∀ j w : Fin n,
    h.matchWorkerByJob j = (w.val : ℤ) → h.matchJobByWorker w = (j.val : ℤ)

/-- The matching only uses zero-slack (tight) edges. -/
def TightMatching (h : HungarianAlgorithm n) : Prop :=
  ∀ w j : Fin n, h.matchJobByWorker w = (j.val : ℤ) →
    h.labelByWorker w + h.labelByJob j = h.costMatrix w j

/-- The invariants that hold between phases. -/
structure GInv (h : HungarianAlgorithm n) : Prop where
  matchInv : MatchInv h
  feas : DualFeasible h
  tight : TightMatching h

/-- The jobs already reached by the alternating tree of the active phase. -/
def committedJobs (h : HungarianAlgorithm n) : Finset (Fin n) :=
  Finset.univ.filter fun j => h.parentWorkerByCommittedJob j ≠ -1

/-- The committed workers of the active phase, as a finite set. -/
def committedSet (h : HungarianAlgorithm n) : Finset (Fin n) :=
  Finset.univ.filter fun w => h.committedWorkers w = true

/-- A rank function certifying that following
`job → parentWorkerByCommittedJob → matchJobByWorker` strictly descends, so
the augmenting walk terminates at an unmatched worker. -/
def RankDec (h : HungarianAlgorithm n) (rank : Fin n → ℕ) : Prop :=
  ∀ j : Fin n, h.parentWorkerByCommittedJob j ≠ -1 →
    ∀ w : Fin n, h.parentWorkerByCommittedJob j = (w.val : ℤ) →
      (h.matchJobByWorker w = -1 ∨
        ∃ j' : Fin n, h.matchJobByWorker w = (j'.val : ℤ) ∧
          h.parentWorkerByCommittedJob j' ≠ -1 ∧ rank j' < rank j)

/-- The loop invariant of `executePhase`, at the head of each iteration. -/
structure PhaseInv (h : HungarianAlgorithm n) : Prop where
  g : GInv h
  par_committed : ∀ j : Fin n, h.parentWorkerByCommittedJob j ≠ -1 →
    ∃ w : Fin n, h.parentWorkerByCommittedJob j = (w.val : ℤ) ∧
      h.committedWorkers w = true ∧
      h.labelByWorker w + h.labelByJob j = h.costMatrix w j
  job_matched : ∀ j : Fin n, h.parentWorkerByCommittedJob j ≠ -1 →
    ∃ w : Fin n, h.matchWorkerByJob j = (w.val : ℤ) ∧ h.committedWorkers w = true
  worker_src : ∀ w : Fin n, h.committedWorkers w = true →
    h.matchJobByWorker w = -1 ∨
      ∃ j : Fin n, h.parentWorkerByCommittedJob j ≠ -1 ∧ h.matchWorkerByJob j = (w.val : ℤ)
  card_cw : (committedSet h).card = (committedJobs h).card + 1
  msv_witness : ∀ j : Fin n, h.parentWorkerByCommittedJob j = -1 →
    ∃ w : Fin n, h.minSlackWorkerByJob j = (w.val : ℤ) ∧ h.committedWorkers w = true ∧
      slackVal h w j = h.minSlackValueByJob j
  msv_min : ∀ j : Fin n, h.parentWorkerByCommittedJob j = -1 →
    ∀ w : Fin n, h.committedWorkers w = true → h.minSlackValueByJob j ≤ slackVal h w j
  rank_ex : ∃ rank : Fin n → ℕ,
    (∀ j : Fin n, h.parentWorkerByCommittedJob j ≠ -1 → rank j < (committedJobs h).card) ∧
      RankDec h rank

/-- An augmenting path as read by the walk of `executePhase`: each worker of a
pair is matched to the job of the next pair (`-1` for the last worker), and
each later job's parent is its pair's worker. -/
def WalkChain (h : HungarianAlgorithm n) : List (Fin n × Fin n) → Prop
  | [] => True
  | [(_, p)] => h.matchJobByWorker p = -1
  | (_, p) :: (c', p') :: rest =>
      h.matchJobByWorker p = (c'.val : ℤ) ∧
      h.parentWorkerByCommittedJob c' = (p'.val : ℤ) ∧
      WalkChain h ((c', p') :: rest)

/-- The currently unmatched workers, the measure of the outer loop. -/
def unmatchedWorkers (h : HungarianAlgorithm n) : Finset (Fin n) :=
  Finset.univ.filter fun w => h.matchJobByWorker w = -1

/-- What a completed phase guarantees relative to the state at its head: the
global invariant holds again, the static data is untouched, every matched
worker stays matched, and one previously unmatched worker became matched. -/
def PostPhase (h h' : HungarianAlgorithm n) : Prop :=
  GInv h' ∧ h'.costMatrix = h.costMatrix ∧ h'.rows = h.rows ∧ h'.cols = h.cols ∧
    (∀ w : Fin n, h.matchJobByWorker w ≠ -1 → h'.matchJobByWorker w ≠ -1) ∧
    ∃ w₀ : Fin n, h.matchJobByWorker w₀ = -1 ∧ h'.matchJobByWorker w₀ ≠ -1

/-- Entry `i` of a Go `[]int` result modelled as a list (`-1` out of range;
never exercised on in-contract indices). -/
def resAt (a : List ℤ) (i : ℕ) : ℤ := (a[i]?).getD (-1)

/-- The total assigned cost of a worker-indexed assignment `a` against the
input matrix `m`: the sum of `m[w][a[w]]` over the workers with `a[w] ≠ -1`. -/
def assignedCost (m : List (List GoFloat)) (a : List ℤ) : ℚ :=
  ∑ i in Finset.range a.length,
    if resAt a i = -1 then 0 else entryQ m i (resAt a i).toNat

/-- A worker-indexed assignment obeying the unassignment-cardinality rules:
length `rows`, every entry `-1` or a job index below `cols`, assigned jobs
pairwise distinct, and exactly `rows - cols` (truncated at `0`) unassigned
workers. -/
def ValidAssignment (rows cols : ℕ) (a : List ℤ) : Prop :=
  a.length = rows ∧
    (∀ x ∈ a, x = -1 ∨ (0 ≤ x ∧ x < (cols : ℤ))) ∧
    (a.filter fun x => x != -1).Nodup ∧
    (a.filter fun x => x == -1).length = rows - cols

/-- The first 3×3 scenario matrix of the test suite:
`[[4, 1.5, 4], [4, 4.5, 6], [3, 2.25, 3]]`. -/
def demoSquare : List (List GoFloat) :=
  [[.finite 4, .finite (3 / 2), .finite 4],
   [.finite 4, .finite (9 / 2), .finite 6],
   [.finite 3, .finite (9 / 4), .finite 3]]

/-- The state `NewHungarianAlgorithm` builds from `demoSquare`. -/
def demoSquareState : HungarianAlgorithm 3 where
  rows := 3
  cols := 3
  costMatrix := fun w j => entryQ demoSquare w.val j.val
  labelByWorker := fun _ => 0
  labelByJob := fun _ => 0
  minSlackWorkerByJob := fun _ => 0
  minSlackValueByJob := fun _ => 0
  matchJobByWorker := fun _ => -1
  matchWorkerByJob := fun _ => -1
  parentWorkerByCommittedJob := fun _ => 0
  committedWorkers := fun _ => false

/-- The 5-worker × 4-job scenario matrix of the test suite (an all-zero
fifth row). -/
def demoTall : List (List GoFloat) :=
  [[.finite 6, .finite 0, .finite 7, .finite 5],
   [.finite 2, .finite 6, .finite 2, .finite 6],
   [.finite 2, .finite 7, .finite 2, .finite 1],
   [.finite 9, .finite 4, .finite 7, .finite 1],
   [.finite 0, .finite 0, .finite 0, .finite 0]]

/-- The state `NewHungarianAlgorithm` builds from `demoTall`. -/
def demoTallState : HungarianAlgorithm 5 where
  rows := 5
  cols := 4
  costMatrix := fun w j => entryQ demoTall w.val j.val
  labelByWorker := fun _ => 0
  labelByJob := fun _ => 0
  minSlackWorkerByJob := fun _ => 0
  minSlackValueByJob := fun _ => 0
  matchJobByWorker := fun _ => -1
  matchWorkerByJob := fun _ => -1
  parentWorkerByCommittedJob := fun _ => 0
  committedWorkers := fun _ => false

/-- A one-worker state in the middle of a phase (as produced by
`initializePhase` at worker `0` on a 1×1 instance of cost `5`), used to
exhibit a relabeling step with positive slack. -/
def demoPhaseState : HungarianAlgorithm 1 where
  rows := 1
  cols := 1
  costMatrix := fun _ _ => 5
  labelByWorker := fun _ => 0
  labelByJob := fun _ => 0
  minSlackWorkerByJob := fun _ => 0
  minSlackValueByJob := fun _ => 5
  matchJobByWorker := fun _ => -1
  matchWorkerByJob := fun _ => -1
  parentWorkerByCommittedJob := fun _ => -1
  committedWorkers := fun _ => true

/-- Everything a successful construction `NewHungarianAlgorithm m = .ok ⟨n, h⟩`
says about `n` and `h`. -/
structure NewOk (m : List (List GoFloat)) (n : ℕ) (h : HungarianAlgorithm n) : Prop where
  ne_nil : m ≠ []
  n_eq : n = m.length
  rows_eq : h.rows = m.length
  cols_eq : h.cols = m.headI.length
  cols_le : h.cols ≤ n
  valid : validateRows h.cols m = none
  cost_eq : h.costMatrix = fun w j => entryQ m w.val j.val
  lw_eq : h.labelByWorker = fun _ => 0
  lj_eq : h.labelByJob = fun _ => 0
  mjw_eq : h.matchJobByWorker = fun _ => -1
  mwj_eq : h.matchWorkerByJob = fun _ => -1

/-! ## Projection lemmas

Each operation of the solver only writes some of the fields; the remaining
projections reduce definitionally. -/

@[simp] lemma reduce_rows (h : HungarianAlgorithm n) : (reduce h).rows = h.rows := rfl
@[simp] lemma reduce_cols (h : HungarianAlgorithm n) : (reduce h).cols = h.cols := rfl
@[simp] lemma reduce_labelByWorker (h : HungarianAlgorithm n) :
    (reduce h).labelByWorker = h.labelByWorker := rfl
@[simp] lemma reduce_labelByJob (h : HungarianAlgorithm n) :
    (reduce h).labelByJob = h.labelByJob := rfl
@[simp] lemma reduce_matchJobByWorker (h : HungarianAlgorithm n) :
    (reduce h).matchJobByWorker = h.matchJobByWorker := rfl
@[simp] lemma reduce_matchWorkerByJob (h : HungarianAlgorithm n) :
    (reduce h).matchWorkerByJob = h.matchWorkerByJob := rfl

@[simp] lemma cifs_rows (h : HungarianAlgorithm n) :
    (computeInitialFeasibleSolution h).rows = h.rows := rfl
@[simp] lemma cifs_cols (h : HungarianAlgorithm n) :
    (computeInitialFeasibleSolution h).cols = h.cols := rfl
@[simp] lemma cifs_costMatrix (h : HungarianAlgorithm n) :
    (computeInitialFeasibleSolution h).costMatrix = h.costMatrix := rfl
@[simp] lemma cifs_labelByWorker (h : HungarianAlgorithm n) :
    (computeInitialFeasibleSolution h).labelByWorker = h.labelByWorker := rfl
@[simp] lemma cifs_matchJobByWorker (h : HungarianAlgorithm n) :
    (computeInitialFeasibleSolution h).matchJobByWorker = h.matchJobByWorker := rfl
@[simp] lemma cifs_matchWorkerByJob (h : HungarianAlgorithm n) :
    (computeInitialFeasibleSolution h).matchWorkerByJob = h.matchWorkerByJob := rfl

@[simp] lemma matchWJ_rows (h : HungarianAlgorithm n) (w j : Fin n) :
    (h.matchWJ w j).rows = h.rows := rfl
@[simp] lemma matchWJ_cols (h : HungarianAlgorithm n) (w j : Fin n) :
    (h.matchWJ w j).cols = h.cols := rfl
@[simp] lemma matchWJ_costMatrix (h : HungarianAlgorithm n) (w j : Fin n) :
    (h.matchWJ w j).costMatrix = h.costMatrix := rfl
@[simp] lemma matchWJ_labelByWorker (h : HungarianAlgorithm n) (w j : Fin n) :
    (h.matchWJ w j).labelByWorker = h.labelByWorker := rfl
@[simp] lemma matchWJ_labelByJob (h : HungarianAlgorithm n) (w j : Fin n) :
    (h.matchWJ w j).labelByJob = h.labelByJob := rfl
@[simp] lemma matchWJ_parent (h : HungarianAlgorithm n) (w j : Fin n) :
    (h.matchWJ w j).parentWorkerByCommittedJob = h.parentWorkerByCommittedJob := rfl
@[simp] lemma matchWJ_committed (h : HungarianAlgorithm n) (w j : Fin n) :
    (h.matchWJ w j).committedWorkers = h.committedWorkers := rfl
@[simp] lemma matchWJ_minSlackValue (h : HungarianAlgorithm n) (w j : Fin n) :
    (h.matchWJ w j).minSlackValueByJob = h.minSlackValueByJob := rfl
@[simp] lemma matchWJ_minSlackWorker (h : HungarianAlgorithm n) (w j : Fin n) :
    (h.matchWJ w j).minSlackWorkerByJob = h.minSlackWorkerByJob := rfl
lemma matchWJ_matchJobByWorker (h : HungarianAlgorithm n) (w j : Fin n) :
    (h.matchWJ w j).matchJobByWorker =
      Function.update h.matchJobByWorker w (j.val : ℤ) := rfl
lemma matchWJ_matchWorkerByJob (h : HungarianAlgorithm n) (w j : Fin n) :
    (h.matchWJ w j).matchWorkerByJob =
      Function.update h.matchWorkerByJob j (w.val : ℤ) := rfl

@[simp] lemma greedyStep_rows (h : HungarianAlgorithm n) (w j : Fin n) :
    (greedyStep h w j).rows = h.rows := by unfold greedyStep; split <;> rfl
@[simp] lemma greedyStep_cols (h : HungarianAlgorithm n) (w j : Fin n) :
    (greedyStep h w j).cols = h.cols := by unfold greedyStep; split <;> rfl
@[simp] lemma greedyStep_costMatrix (h : HungarianAlgorithm n) (w j : Fin n) :
    (greedyStep h w j).costMatrix = h.costMatrix := by unfold greedyStep; split <;> rfl
@[simp] lemma greedyStep_labelByWorker (h : HungarianAlgorithm n) (w j : Fin n) :
    (greedyStep h w j).labelByWorker = h.labelByWorker := by unfold greedyStep; split <;> rfl
@[simp] lemma greedyStep_labelByJob (h : HungarianAlgorithm n) (w j : Fin n) :
    (greedyStep h w j).labelByJob = h.labelByJob := by unfold greedyStep; split <;> rfl

@[simp] lemma initializePhase_rows (h : HungarianAlgorithm n) (w : Fin n) :
    (h.initializePhase w).rows = h.rows := rfl
@[simp] lemma initializePhase_cols (h : HungarianAlgorithm n) (w : Fin n) :
    (h.initializePhase w).cols = h.cols := rfl
@[simp] lemma initializePhase_costMatrix (h : HungarianAlgorithm n) (w : Fin n) :
    (h.initializePhase w).costMatrix = h.costMatrix := rfl
@[simp] lemma initializePhase_labelByWorker (h : HungarianAlgorithm n) (w : Fin n) :
    (h.initializePhase w).labelByWorker = h.labelByWorker := rfl
@[simp] lemma initializePhase_labelByJob (h : HungarianAlgorithm n) (w : Fin n) :
    (h.initializePhase w).labelByJob = h.labelByJob := rfl
@[simp] lemma initializePhase_matchJobByWorker (h : HungarianAlgorithm n) (w : Fin n) :
    (h.initializePhase w).matchJobByWorker = h.matchJobByWorker := rfl
@[simp] lemma initializePhase_matchWorkerByJob (h : HungarianAlgorithm n) (w : Fin n) :
    (h.initializePhase w).matchWorkerByJob = h.matchWorkerByJob := rfl
@[simp] lemma initializePhase_parent (h : HungarianAlgorithm n) (w : Fin n) :
    (h.initializePhase w).parentWorkerByCommittedJob = fun _ => -1 := rfl
@[simp] lemma initializePhase_committed (h : HungarianAlgorithm n) (w : Fin n) :
    (h.initializePhase w).committedWorkers = Function.update (fun _ => false) w true := rfl
@[simp] lemma initializePhase_minSlackValue (h : HungarianAlgorithm n) (w : Fin n) :
    (h.initializePhase w).minSlackValueByJob =
      fun j => h.costMatrix w j - h.labelByWorker w - h.labelByJob j := rfl
@[simp] lemma initializePhase_minSlackWorker (h : HungarianAlgorithm n) (w : Fin n) :
    (h.initializePhase w).minSlackWorkerByJob = fun _ => (w.val : ℤ) := rfl

@[simp] lemma updateLabeling_rows (h : HungarianAlgorithm n) (s : ℚ) :
    (h.updateLabeling s).rows = h.rows := rfl
@[simp] lemma updateLabeling_cols (h : HungarianAlgorithm n) (s : ℚ) :
    (h.updateLabeling s).cols = h.cols := rfl
@[simp] lemma updateLabeling_costMatrix (h : HungarianAlgorithm n) (s : ℚ) :
    (h.updateLabeling s).costMatrix = h.costMatrix := rfl
@[simp] lemma updateLabeling_matchJobByWorker (h : HungarianAlgorithm n) (s : ℚ) :
    (h.updateLabeling s).matchJobByWorker = h.matchJobByWorker := rfl
@[simp] lemma updateLabeling_matchWorkerByJob (h : HungarianAlgorithm n) (s : ℚ) :
    (h.updateLabeling s).matchWorkerByJob = h.matchWorkerByJob := rfl
@[simp] lemma updateLabeling_parent (h : HungarianAlgorithm n) (s : ℚ) :
    (h.updateLabeling s).parentWorkerByCommittedJob = h.parentWorkerByCommittedJob := rfl
@[simp] lemma updateLabeling_committed (h : HungarianAlgorithm n) (s : ℚ) :
    (h.updateLabeling s).committedWorkers = h.committedWorkers := rfl
@[simp] lemma updateLabeling_minSlackWorker (h : HungarianAlgorithm n) (s : ℚ) :
    (h.updateLabeling s).minSlackWorkerByJob = h.minSlackWorkerByJob := rfl

@[simp] lemma commitJob_rows (h : HungarianAlgorithm n) (mj : Fin n) (mw : ℤ) :
    (h.commitJob mj mw).rows = h.rows := rfl
@[simp] lemma commitJob_cols (h : HungarianAlgorithm n) (mj : Fin n) (mw : ℤ) :
    (h.commitJob mj mw).cols = h.cols := rfl
@[simp] lemma commitJob_costMatrix (h : HungarianAlgorithm n) (mj : Fin n) (mw : ℤ) :
    (h.commitJob mj mw).costMatrix = h.costMatrix := rfl
@[simp] lemma commitJob_labelByWorker (h : HungarianAlgorithm n) (mj : Fin n) (mw : ℤ) :
    (h.commitJob mj mw).labelByWorker = h.labelByWorker := rfl
@[simp] lemma commitJob_labelByJob (h : HungarianAlgorithm n) (mj : Fin n) (mw : ℤ) :
    (h.commitJob mj mw).labelByJob = h.labelByJob := rfl
@[simp] lemma commitJob_matchJobByWorker (h : HungarianAlgorithm n) (mj : Fin n) (mw : ℤ) :
    (h.commitJob mj mw).matchJobByWorker = h.matchJobByWorker := rfl
@[simp] lemma commitJob_matchWorkerByJob (h : HungarianAlgorithm n) (mj : Fin n) (mw : ℤ) :
    (h.commitJob mj mw).matchWorkerByJob = h.matchWorkerByJob := rfl
@[simp] lemma commitJob_committed (h : HungarianAlgorithm n) (mj : Fin n) (mw : ℤ) :
    (h.commitJob mj mw).committedWorkers = h.committedWorkers := rfl
@[simp] lemma commitJob_minSlackValue (h : HungarianAlgorithm n) (mj : Fin n) (mw : ℤ) :
    (h.commitJob mj mw).minSlackValueByJob = h.minSlackValueByJob := rfl
@[simp] lemma commitJob_minSlackWorker (h : HungarianAlgorithm n) (mj : Fin n) (mw : ℤ) :
    (h.commitJob mj mw).minSlackWorkerByJob = h.minSlackWorkerByJob := rfl
lemma commitJob_parent (h : HungarianAlgorithm n) (mj : Fin n) (mw : ℤ) :
    (h.commitJob mj mw).parentWorkerByCommittedJob =
      Function.update h.parentWorkerByCommittedJob mj mw := rfl

@[simp] lemma commitWorker_rows (h : HungarianAlgorithm n) (w : Fin n) :
    (h.commitWorker w).rows = h.rows := rfl
@[simp] lemma commitWorker_cols (h : HungarianAlgorithm n) (w : Fin n) :
    (h.commitWorker w).cols = h.cols := rfl
@[simp] lemma commitWorker_costMatrix (h : HungarianAlgorithm n) (w : Fin n) :
    (h.commitWorker w).costMatrix = h.costMatrix := rfl
@[simp] lemma commitWorker_labelByWorker (h : HungarianAlgorithm n) (w : Fin n) :
    (h.commitWorker w).labelByWorker = h.labelByWorker := rfl
@[simp] lemma commitWorker_labelByJob (h : HungarianAlgorithm n) (w : Fin n) :
    (h.commitWorker w).labelByJob = h.labelByJob := rfl
@[simp] lemma commitWorker_matchJobByWorker (h : HungarianAlgorithm n) (w : Fin n) :
    (h.commitWorker w).matchJobByWorker = h.matchJobByWorker := rfl
@[simp] lemma commitWorker_matchWorkerByJob (h : HungarianAlgorithm n) (w : Fin n) :
    (h.commitWorker w).matchWorkerByJob = h.matchWorkerByJob := rfl
@[simp] lemma commitWorker_parent (h : HungarianAlgorithm n) (w : Fin n) :
    (h.commitWorker w).parentWorkerByCommittedJob = h.parentWorkerByCommittedJob := rfl
@[simp] lemma commitWorker_minSlackValue (h : HungarianAlgorithm n) (w : Fin n) :
    (h.commitWorker w).minSlackValueByJob = h.minSlackValueByJob := rfl
@[simp] lemma commitWorker_minSlackWorker (h : HungarianAlgorithm n) (w : Fin n) :
    (h.commitWorker w).minSlackWorkerByJob = h.minSlackWorkerByJob := rfl
lemma commitWorker_committed (h : HungarianAlgorithm n) (w : Fin n) :
    (h.commitWorker w).committedWorkers = Function.update h.committedWorkers w true := rfl

@[simp] lemma updateSlacksFor_rows (h : HungarianAlgorithm n) (w : Fin n) :
    (h.updateSlacksFor w).rows = h.rows := rfl
@[simp] lemma updateSlacksFor_cols (h : HungarianAlgorithm n) (w : Fin n) :
    (h.updateSlacksFor w).cols = h.cols := rfl
@[simp] lemma updateSlacksFor_costMatrix (h : HungarianAlgorithm n) (w : Fin n) :
    (h.updateSlacksFor w).costMatrix = h.costMatrix := rfl
@[simp] lemma updateSlacksFor_labelByWorker (h : HungarianAlgorithm n) (w : Fin n) :
    (h.updateSlacksFor w).labelByWorker = h.labelByWorker := rfl
@[simp] lemma updateSlacksFor_labelByJob (h : HungarianAlgorithm n) (w : Fin n) :
    (h.updateSlacksFor w).labelByJob = h.labelByJob := rfl
@[simp] lemma updateSlacksFor_matchJobByWorker (h : HungarianAlgorithm n) (w : Fin n) :
    (h.updateSlacksFor w).matchJobByWorker = h.matchJobByWorker := rfl
@[simp] lemma updateSlacksFor_matchWorkerByJob (h : HungarianAlgorithm n) (w : Fin n) :
    (h.updateSlacksFor w).matchWorkerByJob = h.matchWorkerByJob := rfl
@[simp] lemma updateSlacksFor_parent (h : HungarianAlgorithm n) (w : Fin n) :
    (h.updateSlacksFor w).parentWorkerByCommittedJob = h.parentWorkerByCommittedJob := rfl
@[simp] lemma updateSlacksFor_committed (h : HungarianAlgorithm n) (w : Fin n) :
    (h.updateSlacksFor w).committedWorkers = h.committedWorkers := rfl

/-! ## Specification of the `+Inf`-seeded minimum fold -/

lemma infMinStep_some (a x : ℚ) : infMinStep (some a) x = some (min a x) := by
  show (if x < a then some x else some a) = some (min a x)
  rcases lt_or_ge x a with hlt | hge
  · rw [if_pos hlt, min_eq_right hlt.le]
  · rw [if_neg (not_lt.mpr hge), min_eq_left hge]

lemma infMinFold_from_some (l : List ℚ) (a : ℚ) :
    l.foldl infMinStep (some a) = some (l.foldl min a) := by
  induction l generalizing a with
  | nil => rfl
  | cons x xs ih => rw [List.foldl_cons, infMinStep_some, ih, List.foldl_cons]

lemma infMinFold_cons (x : ℚ) (l : List ℚ) :
    infMinFold (x :: l) = some (l.foldl min x) := by
  unfold infMinFold
  rw [List.foldl_cons]
  exact infMinFold_from_some l x

lemma foldl_min_le_init (l : List ℚ) : ∀ a : ℚ, l.foldl min a ≤ a := by
  induction l with
  | nil => intro a; exact le_refl a
  | cons x xs ih =>
    intro a
    rw [List.foldl_cons]
    exact le_trans (ih (min a x)) (min_le_left a x)

lemma foldl_min_le_mem (l : List ℚ) : ∀ (a x : ℚ), x ∈ l → l.foldl min a ≤ x := by
  induction l with
  | nil => intro a x hx; cases hx
  | cons y ys ih =>
    intro a x hx
    rw [List.foldl_cons]
    rcases List.mem_cons.mp hx with rfl | hx'
    · exact le_trans (foldl_min_le_init ys (min a x)) (min_le_right a x)
    · exact ih (min a y) x hx'

lemma foldl_min_mem (l : List ℚ) : ∀ a : ℚ, l.foldl min a = a ∨ l.foldl min a ∈ l := by
  induction l with
  | nil => intro a; exact Or.inl rfl
  | cons x xs ih =>
    intro a
    rw [List.foldl_cons]
    rcases ih (min a x) with h | h
    · rw [h]
      rcases le_total a x with hax | hxa
      · exact Or.inl (min_eq_left hax)
      · right
        rw [min_eq_right hxa]
        exact List.mem_cons_self x xs
    · exact Or.inr (List.mem_cons_of_mem x h)

/-- The fold over a nonempty `List.ofFn` computes the minimum of the function:
the returned value is attained and is a lower bound. -/
lemma infMinFold_ofFn_spec {m : ℕ} (f : Fin m → ℚ) (i : Fin m) :
    (∃ i₀ : Fin m, (infMinFold (List.ofFn f)).getD 0 = f i₀) ∧
      ∀ k : Fin m, (infMinFold (List.ofFn f)).getD 0 ≤ f k := by
  obtain ⟨x, l, hxl⟩ : ∃ x l, List.ofFn f = x :: l := by
    cases hm : List.ofFn f with
    | nil =>
      have : m = 0 := by simpa using congrArg List.length hm
      exact absurd (this ▸ i).isLt (by omega)
    | cons x l => exact ⟨x, l, rfl⟩
  rw [hxl, infMinFold_cons]
  constructor
  · have hmem : l.foldl min x ∈ List.ofFn f := by
      rw [hxl]
      rcases foldl_min_mem l x with h | h
      · rw [h]; exact List.mem_cons_self x l
      · exact List.mem_cons_of_mem x h
    obtain ⟨i₀, hi₀⟩ := Set.mem_range.mp ((List.mem_ofFn f _).mp hmem)
    exact ⟨i₀, by simpa using hi₀.symm⟩
  · intro k
    have hk : f k ∈ List.ofFn f := by
      rw [List.mem_ofFn]
      exact Set.mem_range.mpr ⟨k, rfl⟩
    rw [hxl] at hk
    rcases List.mem_cons.mp hk with h | h
    · simpa [← h] using foldl_min_le_init l x
    · simpa using foldl_min_le_mem l x (f k) h

/-! ## Specification of the minimum-slack scan -/

lemma findMinSlackStep_skip (h : HungarianAlgorithm n) (acc : Option (ℤ × Fin n × ℚ))
    (j : Fin n) (hj : h.parentWorkerByCommittedJob j ≠ -1) :
    findMinSlackStep h acc j = acc := by
  unfold findMinSlackStep; rw [if_neg hj]

lemma findMinSlackStep_none (h : HungarianAlgorithm n) (j : Fin n)
    (hj : h.parentWorkerByCommittedJob j = -1) :
    findMinSlackStep h none j =
      some (h.minSlackWorkerByJob j, j, h.minSlackValueByJob j) := by
  unfold findMinSlackStep; rw [if_pos hj]

lemma findMinSlackStep_some (h : HungarianAlgorithm n) (j : Fin n)
    (hj : h.parentWorkerByCommittedJob j = -1) (mw : ℤ) (mj : Fin n) (mv : ℚ) :
    findMinSlackStep h (some (mw, mj, mv)) j =
      if h.minSlackValueByJob j < mv then
        some (h.minSlackWorkerByJob j, j, h.minSlackValueByJob j)
      else some (mw, mj, mv) := by
  unfold findMinSlackStep; rw [if_pos hj]

lemma scanInv_step (h : HungarianAlgorithm n) (seen : List (Fin n)) (acc) (x : Fin n)
    (hacc : ScanInv h seen acc) : ScanInv h (seen ++ [x]) (findMinSlackStep h acc x) := by
  by_cases hx : h.parentWorkerByCommittedJob x = -1
  · match acc with
    | none =>
      rw [findMinSlackStep_none h x hx]
      refine ⟨hx, rfl, rfl, ?_⟩
      intro j hj hpj
      rcases List.mem_append.mp hj with hj' | hj'
      · exact absurd hpj (hacc j hj')
      · rcases List.mem_singleton.mp hj' with rfl
        exact le_refl _
    | some (mw, mj, mv) =>
      obtain ⟨hmj, hmw, hmv, hmin⟩ := hacc
      rw [findMinSlackStep_some h x hx]
      by_cases hlt : h.minSlackValueByJob x < mv
      · rw [if_pos hlt]
        refine ⟨hx, rfl, rfl, ?_⟩
        intro j hj hpj
        rcases List.mem_append.mp hj with hj' | hj'
        · exact le_trans hlt.le (hmin j hj' hpj)
        · rcases List.mem_singleton.mp hj' with rfl
          exact le_refl _
      · rw [if_neg hlt]
        refine ⟨hmj, hmw, hmv, ?_⟩
        intro j hj hpj
        rcases List.mem_append.mp hj with hj' | hj'
        · exact hmin j hj' hpj
        · rcases List.mem_singleton.mp hj' with rfl
          exact le_of_not_lt hlt
  · rw [findMinSlackStep_skip h acc x hx]
    match acc with
    | none =>
      intro j hj
      rcases List.mem_append.mp hj with hj' | hj'
      · exact hacc j hj'
      · rcases List.mem_singleton.mp hj' with rfl
        exact hx
    | some (mw, mj, mv) =>
      obtain ⟨hmj, hmw, hmv, hmin⟩ := hacc
      refine ⟨hmj, hmw, hmv, ?_⟩
      intro j hj hpj
      rcases List.mem_append.mp hj with hj' | hj'
      · exact hmin j hj' hpj
      · rcases List.mem_singleton.mp hj' with rfl
        exact absurd hpj hx

lemma scanInv_foldl (h : HungarianAlgorithm n) :
    ∀ (l seen : List (Fin n)) (acc), ScanInv h seen acc →
      ScanInv h (seen ++ l) (l.foldl (findMinSlackStep h) acc) := by
  intro l
  induction l with
  | nil => intro seen acc hacc; simpa using hacc
  | cons x xs ih =>
    intro seen acc hacc
    rw [List.foldl_cons]
    have := ih (seen ++ [x]) (findMinSlackStep h acc x) (scanInv_step h seen acc x hacc)
    simpa using this

lemma findMinSlack_scanInv (h : HungarianAlgorithm n) :
    ScanInv h (List.finRange n) h.findMinSlack := by
  have := scanInv_foldl h (List.finRange n) [] none (by intro j hj; cases hj)
  simpa using this

/-- `findMinSlack` finds an uncommitted job of globally minimal cached slack,
together with its cached origin worker. -/
lemma findMinSlack_some_spec (h : HungarianAlgorithm n) (mw : ℤ) (mj : Fin n) (mv : ℚ)
    (hres : h.findMinSlack = some (mw, mj, mv)) :
    h.parentWorkerByCommittedJob mj = -1 ∧ mw = h.minSlackWorkerByJob mj ∧
      mv = h.minSlackValueByJob mj ∧
      ∀ j : Fin n, h.parentWorkerByCommittedJob j = -1 → mv ≤ h.minSlackValueByJob j := by
  have hinv := findMinSlack_scanInv h
  rw [hres] at hinv
  exact ⟨hinv.1, hinv.2.1, hinv.2.2.1, fun j hj => hinv.2.2.2 j (List.mem_finRange j) hj⟩

/-- `findMinSlack` returns `none` exactly when every job already has a
parent (then the Go code would index `parentWorkerByCommittedJob[-1]`). -/
lemma findMinSlack_none_iff (h : HungarianAlgorithm n) :
    h.findMinSlack = none ↔ ∀ j : Fin n, h.parentWorkerByCommittedJob j ≠ -1 := by
  constructor
  · intro hres
    have hinv := findMinSlack_scanInv h
    rw [hres] at hinv
    exact fun j => hinv j (List.mem_finRange j)
  · intro hall
    cases hres : h.findMinSlack with
    | none => rfl
    | some t =>
      obtain ⟨mw, mj, mv⟩ := t
      exact absurd (findMinSlack_some_spec h mw mj mv hres).1 (hall mj)

/-! ## `fetchUnmatchedWorker` and `toIdx` -/

lemma fetchUnmatchedWorker_some (h : HungarianAlgorithm n) (w : Fin n)
    (hw : h.fetchUnmatchedWorker = some w) : h.matchJobByWorker w = -1 := by
  have := List.find?_some hw
  simpa using this

lemma fetchUnmatchedWorker_none (h : HungarianAlgorithm n)
    (hw : h.fetchUnmatchedWorker = none) : ∀ w : Fin n, h.matchJobByWorker w ≠ -1 := by
  intro w
  have := List.find?_eq_none.mp hw w (List.mem_finRange w)
  simpa using this

@[simp] lemma toIdx_coe (w : Fin n) : toIdx n (w.val : ℤ) = some w := by
  unfold toIdx
  rw [dif_pos ⟨Int.ofNat_nonneg w.val, by simp⟩]
  congr 1

/-! ## Small coercion facts -/

lemma coe_val_ne_neg_one (j : Fin n) : (j.val : ℤ) ≠ -1 := by omega

lemma coe_val_inj {j j' : Fin n} (h : (j.val : ℤ) = (j'.val : ℤ)) : j = j' :=
  Fin.ext (by exact_mod_cast h)

/-! ## Characterisation of construction -/

lemma checkEntries_eq_none_iff (l : List GoFloat) :
    checkEntries l = none ↔ ∀ c ∈ l, c.isInf = false ∧ c.isNaN = false := by
  induction l with
  | nil => simp [checkEntries]
  | cons c cs ih =>
    unfold checkEntries
    by_cases hinf : c.isInf = true
    · simp [hinf]
    · by_cases hnan : c.isNaN = true
      · simp [hinf, hnan]
      · simp only [Bool.not_eq_true] at hinf hnan
        simp [hinf, hnan, ih]

lemma checkRow_eq_none_iff (cols : ℕ) (row : List GoFloat) :
    checkRow cols row = none ↔ row.length = cols ∧ checkEntries row = none := by
  unfold checkRow
  by_cases hl : row.length = cols
  · simp [hl]
  · simp [hl]

lemma validateRows_eq_none_iff (cols : ℕ) (m : List (List GoFloat)) :
    validateRows cols m = none ↔ ∀ row ∈ m, checkRow cols row = none := by
  induction m with
  | nil => simp [validateRows]
  | cons r rs ih =>
    unfold validateRows
    cases hcr : checkRow cols r with
    | some e => simp [hcr]
    | none => simp [hcr, ih]

lemma validateRows_length (cols : ℕ) (m : List (List GoFloat))
    (hv : validateRows cols m = none) : ∀ row ∈ m, row.length = cols := fun row hrow =>
  ((checkRow_eq_none_iff cols row).mp ((validateRows_eq_none_iff cols m).mp hv row hrow)).1

/-- Inversion of a successful construction. -/
lemma newOk_of_ok (m : List (List GoFloat)) (k : ℕ) (h : HungarianAlgorithm k)
    (hok : NewHungarianAlgorithm m = .ok ⟨k, h⟩) : NewOk m k h := by
  match m with
  | [] => exact absurd hok (by simp [NewHungarianAlgorithm])
  | row0 :: rest =>
    unfold NewHungarianAlgorithm at hok
    simp only at hok
    cases hv : validateRows row0.length (row0 :: rest) with
    | some e =>
      rw [hv] at hok
      exact absurd hok (by simp)
    | none =>
      rw [hv] at hok
      by_cases hlt : (row0 :: rest).length < max (row0 :: rest).length row0.length
      · rw [if_pos hlt] at hok
        exact absurd hok (by simp)
      · rw [if_neg hlt] at hok
        have hmax : max (row0 :: rest).length row0.length = (row0 :: rest).length := by
          rcases max_cases (row0 :: rest).length row0.length with ⟨he, _⟩ | ⟨he, _⟩
          · exact he
          · omega
        injection hok with hok'
        rcases Sigma.mk.inj_iff.mp hok' with ⟨hn, hh⟩
        subst hn
        have hh' := eq_of_heq hh
        subst hh'
        exact
          { ne_nil := by simp
            n_eq := hmax
            rows_eq := rfl
            cols_eq := rfl
            cols_le := by
              have h1 : row0.length ≤ max (row0 :: rest).length row0.length :=
                le_max_right _ _
              rw [hmax] at h1
              first
              | exact h1
              | exact le_max_right _ _
            valid := hv
            cost_eq := rfl
            lw_eq := rfl
            lj_eq := rfl
            mjw_eq := rfl
            mwj_eq := rfl }

/-- The success direction: a nonempty validated matrix with at least as many
rows as columns constructs successfully. -/
lemma new_ok_of_valid (row0 : List GoFloat) (rest : List (List GoFloat))
    (hv : validateRows row0.length (row0 :: rest) = none)
    (hle : row0.length ≤ (row0 :: rest).length) :
    ∃ h : HungarianAlgorithm (row0 :: rest).length,
      NewHungarianAlgorithm (row0 :: rest) = .ok ⟨(row0 :: rest).length, h⟩ := by
  unfold NewHungarianAlgorithm
  simp only
  rw [hv]
  have hmax : max (row0 :: rest).length row0.length = (row0 :: rest).length :=
    max_eq_left hle
  rw [if_neg (by omega)]
  rw [hmax]
  exact ⟨_, rfl⟩

/-! ## The prepared initial state satisfies the global invariant -/

lemma matchWJ_GInv (s : HungarianAlgorithm n) (w j : Fin n)
    (hw : s.matchJobByWorker w = -1) (hj : s.matchWorkerByJob j = -1)
    (htight : s.labelByWorker w + s.labelByJob j = s.costMatrix w j)
    (hg : GInv s) : GInv (s.matchWJ w j) := by
  refine ⟨⟨?_, ?_, ?_, ?_⟩, ?_, ?_⟩
  · intro w'
    rw [matchWJ_matchJobByWorker, Function.update_apply]
    by_cases hww : w' = w
    · rw [if_pos hww]; exact Or.inr ⟨j, rfl⟩
    · rw [if_neg hww]; exact hg.matchInv.mjw_cases w'
  · intro j'
    rw [matchWJ_matchWorkerByJob, Function.update_apply]
    by_cases hjj : j' = j
    · rw [if_pos hjj]; exact Or.inr ⟨w, rfl⟩
    · rw [if_neg hjj]; exact hg.matchInv.mwj_cases j'
  · intro w' j'
    rw [matchWJ_matchJobByWorker, matchWJ_matchWorkerByJob,
      Function.update_apply, Function.update_apply]
    by_cases hww : w' = w
    · rw [if_pos hww]
      intro heq
      have : j' = j := coe_val_inj heq.symm
      rw [if_pos this, hww]
    · rw [if_neg hww]
      intro heq
      have hold := hg.matchInv.mjw_mwj w' j' heq
      by_cases hjj : j' = j
      · subst hjj
        rw [hj] at hold
        exact absurd hold.symm (coe_val_ne_neg_one w')
      · rw [if_neg hjj]; exact hold
  · intro j' w'
    rw [matchWJ_matchJobByWorker, matchWJ_matchWorkerByJob,
      Function.update_apply, Function.update_apply]
    by_cases hjj : j' = j
    · rw [if_pos hjj]
      intro heq
      have : w' = w := coe_val_inj heq.symm
      rw [if_pos this, hjj]
    · rw [if_neg hjj]
      intro heq
      have hold := hg.matchInv.mwj_mjw j' w' heq
      by_cases hww : w' = w
      · subst hww
        rw [hw] at hold
        exact absurd hold.symm (coe_val_ne_neg_one j')
      · rw [if_neg hww]; exact hold
  · intro w' j'
    exact hg.feas w' j'
  · intro w' j'
    rw [matchWJ_matchJobByWorker, Function.update_apply]
    by_cases hww : w' = w
    · rw [if_pos hww]
      intro heq
      have : j' = j := coe_val_inj heq.symm
      rw [hww, this]
      exact htight
    · rw [if_neg hww]
      intro heq
      exact hg.tight w' j' heq

lemma greedyStep_GInv (s : HungarianAlgorithm n) (w j : Fin n) (hg : GInv s) :
    GInv (greedyStep s w j) := by
  unfold greedyStep
  split
  · case isTrue c =>
    exact matchWJ_GInv s w j c.1 c.2.1 (by linarith [c.2.2]) hg
  · case isFalse => exact hg

lemma foldl_preserves {β : Type} (P : HungarianAlgorithm n → Prop)
    (f : HungarianAlgorithm n → β → HungarianAlgorithm n)
    (hf : ∀ s b, P s → P (f s b)) :
    ∀ (l : List β) (s : HungarianAlgorithm n), P s → P (l.foldl f s) := by
  intro l
  induction l with
  | nil => intro s hs; exact hs
  | cons x xs ih =>
    intro s hs
    rw [List.foldl_cons]
    exact ih _ (hf s x hs)

lemma greedyMatch_GInv (h : HungarianAlgorithm n) (hg : GInv h) : GInv (greedyMatch h) := by
  unfold greedyMatch
  refine foldl_preserves GInv _ ?_ _ h hg
  intro s w hs
  exact foldl_preserves GInv _ (fun s' j hs' => greedyStep_GInv s' w j hs') _ s hs

lemma greedyMatch_static (h : HungarianAlgorithm n) :
    (greedyMatch h).costMatrix = h.costMatrix ∧
      (greedyMatch h).labelByWorker = h.labelByWorker ∧
      (greedyMatch h).labelByJob = h.labelByJob ∧
      (greedyMatch h).rows = h.rows ∧ (greedyMatch h).cols = h.cols := by
  unfold greedyMatch
  refine foldl_preserves
    (fun s => s.costMatrix = h.costMatrix ∧ s.labelByWorker = h.labelByWorker ∧
      s.labelByJob = h.labelByJob ∧ s.rows = h.rows ∧ s.cols = h.cols) _ ?_ _ h
    ⟨rfl, rfl, rfl, rfl, rfl⟩
  intro s w hs
  exact foldl_preserves
    (fun s => s.costMatrix = h.costMatrix ∧ s.labelByWorker = h.labelByWorker ∧
      s.labelByJob = h.labelByJob ∧ s.rows = h.rows ∧ s.cols = h.cols)
    _ (fun s' j hs' => by simpa using hs') _ s hs

/-- After `computeInitialFeasibleSolution` on a state with zero worker labels
and an empty matching, the global invariant holds. -/
lemma cifs_GInv (h : HungarianAlgorithm n)
    (hlw : h.labelByWorker = fun _ => 0)
    (hmjw : h.matchJobByWorker = fun _ => -1)
    (hmwj : h.matchWorkerByJob = fun _ => -1) :
    GInv (computeInitialFeasibleSolution h) := by
  refine ⟨⟨?_, ?_, ?_, ?_⟩, ?_, ?_⟩
  · intro w
    rw [cifs_matchJobByWorker, hmjw]
    exact Or.inl rfl
  · intro j
    rw [cifs_matchWorkerByJob, hmwj]
    exact Or.inl rfl
  · intro w j heq
    rw [cifs_matchJobByWorker, hmjw] at heq
    exact absurd heq.symm (coe_val_ne_neg_one j)
  · intro j w heq
    rw [cifs_matchWorkerByJob, hmwj] at heq
    exact absurd heq.symm (coe_val_ne_neg_one w)
  · intro w j
    rw [cifs_labelByWorker, hlw]
    have hle := (infMinFold_ofFn_spec (fun w' => h.costMatrix w' j) w).2 w
    show 0 + (computeInitialFeasibleSolution h).labelByJob j ≤ _
    rw [zero_add]
    exact hle
  · intro w j heq
    rw [cifs_matchJobByWorker, hmjw] at heq
    exact absurd heq.symm (coe_val_ne_neg_one j)

/-! ## Phase machinery -/

lemma GInv.of_fields {s t : HungarianAlgorithm n} (hg : GInv t)
    (hc : s.costMatrix = t.costMatrix) (hlw : s.labelByWorker = t.labelByWorker)
    (hlj : s.labelByJob = t.labelByJob) (hmjw : s.matchJobByWorker = t.matchJobByWorker)
    (hmwj : s.matchWorkerByJob = t.matchWorkerByJob) : GInv s := by
  refine ⟨⟨?_, ?_, ?_, ?_⟩, ?_, ?_⟩
  · intro w; rw [hmjw]; exact hg.matchInv.mjw_cases w
  · intro j; rw [hmwj]; exact hg.matchInv.mwj_cases j
  · intro w j; rw [hmjw, hmwj]; exact hg.matchInv.mjw_mwj w j
  · intro j w; rw [hmwj, hmjw]; exact hg.matchInv.mwj_mjw j w
  · intro w j; rw [hlw, hlj, hc]; exact hg.feas w j
  · intro w j; rw [hmjw, hlw, hlj, hc]; exact hg.tight w j

lemma dualFeasible_iff_slack (h : HungarianAlgorithm n) :
    DualFeasible h ↔ ∀ w j : Fin n, 0 ≤ slackVal h w j := by
  unfold DualFeasible slackVal
  constructor
  · intro hf w j; have := hf w j; linarith
  · intro hs w j; have := hs w j; linarith

/-- `initializePhase` at an unmatched worker establishes the phase
invariant. -/
lemma initializePhase_PhaseInv (h : HungarianAlgorithm n) (w : Fin n)
    (hg : GInv h) (hw : h.matchJobByWorker w = -1) :
    PhaseInv (h.initializePhase w) := by
  have hcw : ∀ w' : Fin n, (h.initializePhase w).committedWorkers w' = true ↔ w' = w := by
    intro w'
    rw [initializePhase_committed, Function.update_apply]
    by_cases hww : w' = w
    · simp [hww]
    · simp [hww]
  refine ⟨?_, ?_, ?_, ?_, ?_, ?_, ?_, ?_⟩
  · exact hg.of_fields rfl rfl rfl rfl rfl
  · intro j hj
    rw [initializePhase_parent] at hj
    exact absurd rfl hj
  · intro j hj
    rw [initializePhase_parent] at hj
    exact absurd rfl hj
  · intro w' hw'
    rw [initializePhase_matchJobByWorker]
    rw [hcw w'] at hw'
    subst hw'
    exact Or.inl hw
  · have hjobs : committedJobs (h.initializePhase w) = ∅ := by
      unfold committedJobs
      rw [Finset.filter_eq_empty_iff]
      intro j _
      rw [initializePhase_parent]
      simp
    have hws : committedSet (h.initializePhase w) = {w} := by
      unfold committedSet
      ext x
      rw [Finset.mem_filter, Finset.mem_singleton]
      constructor
      · rintro ⟨_, hx⟩; exact (hcw x).mp hx
      · intro hx; exact ⟨Finset.mem_univ x, (hcw x).mpr hx⟩
    rw [hjobs, hws]
    simp
  · intro j _
    refine ⟨w, rfl, (hcw w).mpr rfl, ?_⟩
    rfl
  · intro j _ w' hw'
    rw [(hcw w')] at hw'
    subst hw'
    exact le_refl _
  · refine ⟨fun _ => 0, ?_, ?_⟩
    · intro j hj
      rw [initializePhase_parent] at hj
      exact absurd rfl hj
    · intro j hj
      rw [initializePhase_parent] at hj
      exact absurd rfl hj

lemma updateLabeling_lw (h : HungarianAlgorithm n) (s : ℚ) (w : Fin n) :
    (h.updateLabeling s).labelByWorker w =
      if h.committedWorkers w then h.labelByWorker w + s else h.labelByWorker w := rfl

lemma updateLabeling_lj (h : HungarianAlgorithm n) (s : ℚ) (j : Fin n) :
    (h.updateLabeling s).labelByJob j =
      if h.parentWorkerByCommittedJob j ≠ -1 then h.labelByJob j - s
      else h.labelByJob j := rfl

lemma updateLabeling_msv (h : HungarianAlgorithm n) (s : ℚ) (j : Fin n) :
    (h.updateLabeling s).minSlackValueByJob j =
      if h.parentWorkerByCommittedJob j ≠ -1 then h.minSlackValueByJob j
      else h.minSlackValueByJob j - s := rfl

lemma updateLabeling_slack (h : HungarianAlgorithm n) (s : ℚ) (w j : Fin n) :
    slackVal (h.updateLabeling s) w j =
      slackVal h w j - (if h.committedWorkers w then s else 0) +
        (if h.parentWorkerByCommittedJob j ≠ -1 then s else 0) := by
  unfold slackVal
  rw [updateLabeling_costMatrix, updateLabeling_lw, updateLabeling_lj]
  split_ifs <;> ring

/-- On a matched pair, the worker is committed exactly when the job is
committed (given the phase invariant). -/
lemma matched_committed_iff (h : HungarianAlgorithm n) (hp : PhaseInv h)
    (w j : Fin n) (hmatch : h.matchJobByWorker w = (j.val : ℤ)) :
    h.committedWorkers w = true ↔ h.parentWorkerByCommittedJob j ≠ -1 := by
  constructor
  · intro hcw
    rcases hp.worker_src w hcw with hun | ⟨j₁, hj₁, hmwj₁⟩
    · rw [hun] at hmatch
      exact absurd hmatch.symm (coe_val_ne_neg_one j)
    · have := hp.g.matchInv.mwj_mjw j₁ w hmwj₁
      rw [hmatch] at this
      rw [coe_val_inj this.symm] at hj₁
      exact hj₁
  · intro hpj
    obtain ⟨w₂, hmwj₂, hcw₂⟩ := hp.job_matched j hpj
    have := hp.g.matchInv.mjw_mwj w j hmatch
    rw [this] at hmwj₂
    rw [← coe_val_inj hmwj₂] at hcw₂
    exact hcw₂

/-- The facts established by the possible relabeling at the head of an
`executePhase` iteration: the phase invariant transfers, and the chosen
minimum-slack edge becomes tight. -/
lemma relabel_spec (h : HungarianAlgorithm n) (hp : PhaseInv h)
    (mw : ℤ) (mj : Fin n) (mv : ℚ)
    (hfms : h.findMinSlack = some (mw, mj, mv))
    (h1 : HungarianAlgorithm n) (hh1 : h1 = if 0 < mv then h.updateLabeling mv else h) :
    ∃ w₀ : Fin n,
      mw = (w₀.val : ℤ) ∧ PhaseInv h1 ∧ h1.committedWorkers w₀ = true ∧
        h1.parentWorkerByCommittedJob mj = -1 ∧ slackVal h1 w₀ mj = 0 ∧
        h1.matchJobByWorker = h.matchJobByWorker ∧
        h1.matchWorkerByJob = h.matchWorkerByJob ∧
        h1.parentWorkerByCommittedJob = h.parentWorkerByCommittedJob ∧
        h1.committedWorkers = h.committedWorkers ∧
        h1.minSlackWorkerByJob = h.minSlackWorkerByJob ∧
        h1.costMatrix = h.costMatrix ∧ h1.rows = h.rows ∧ h1.cols = h.cols := by
  obtain ⟨hpmj, hmw, hmv, hmin⟩ := findMinSlack_some_spec h mw mj mv hfms
  obtain ⟨w₀, hmsw₀, hcw₀, hslack₀⟩ := hp.msv_witness mj hpmj
  refine ⟨w₀, by rw [hmw, hmsw₀], ?_⟩
  by_cases hpos : 0 < mv
  · rw [if_pos hpos] at hh1
    subst hh1
    have hslack' : ∀ w j : Fin n, slackVal (h.updateLabeling mv) w j =
        slackVal h w j - (if h.committedWorkers w then mv else 0) +
          (if h.parentWorkerByCommittedJob j ≠ -1 then mv else 0) :=
      updateLabeling_slack h mv
    have hfeas' : DualFeasible (h.updateLabeling mv) := by
      rw [dualFeasible_iff_slack]
      intro w j
      rw [hslack']
      have hge := (dualFeasible_iff_slack h).mp hp.g.feas w j
      by_cases hcw : h.committedWorkers w = true
      · by_cases hpj : h.parentWorkerByCommittedJob j ≠ -1
        · rw [if_pos hcw, if_pos hpj]; linarith
        · rw [if_pos hcw, if_neg hpj]
          push_neg at hpj
          have h1 := hmin j hpj
          have h2 := hp.msv_min j hpj w hcw
          linarith
      · by_cases hpj : h.parentWorkerByCommittedJob j ≠ -1
        · rw [if_neg (by simpa using hcw), if_pos hpj]; linarith
        · rw [if_neg (by simpa using hcw), if_neg hpj]; linarith
    have htight' : ∀ w j : Fin n, h.matchJobByWorker w = (j.val : ℤ) →
        slackVal (h.updateLabeling mv) w j = slackVal h w j := by
      intro w j hmatch
      rw [hslack']
      by_cases hcw : h.committedWorkers w = true
      · rw [if_pos hcw, if_pos ((matched_committed_iff h hp w j hmatch).mp hcw)]
        ring
      · have hpj : ¬ h.parentWorkerByCommittedJob j ≠ -1 := by
          intro hpj
          exact hcw ((matched_committed_iff h hp w j hmatch).mpr hpj)
        rw [if_neg (by simpa using hcw), if_neg hpj]
        ring
    refine ⟨⟨?_, ?_, ?_, ?_, ?_, ?_, ?_, ?_⟩, ?_, ?_, ?_, rfl, rfl, rfl, rfl, rfl, rfl, rfl, rfl⟩
    · -- GInv
      refine ⟨?_, hfeas', ?_⟩
      · exact
          { mjw_cases := fun w => hp.g.matchInv.mjw_cases w
            mwj_cases := fun j => hp.g.matchInv.mwj_cases j
            mjw_mwj := fun w j => hp.g.matchInv.mjw_mwj w j
            mwj_mjw := fun j w => hp.g.matchInv.mwj_mjw j w }
      · intro w j hmatch
        rw [updateLabeling_matchJobByWorker] at hmatch
        have h0 : slackVal h w j = 0 := by
          have := hp.g.tight w j hmatch
          unfold slackVal
          linarith
        have hfin : slackVal (h.updateLabeling mv) w j = 0 := by
          rw [htight' w j hmatch, h0]
        unfold slackVal at hfin
        rw [updateLabeling_costMatrix] at hfin
        rw [show (h.updateLabeling mv).costMatrix = h.costMatrix from rfl]
        linarith
    · -- par_committed
      intro j hj
      rw [updateLabeling_parent] at hj
      obtain ⟨w, hpar, hcw, htree⟩ := hp.par_committed j hj
      refine ⟨w, ?_, ?_, ?_⟩
      · rw [updateLabeling_parent]; exact hpar
      · rw [updateLabeling_committed]; exact hcw
      · have hsl : slackVal h w j = 0 := by unfold slackVal; linarith
        have hfin : slackVal (h.updateLabeling mv) w j = 0 := by
          rw [hslack' w j, if_pos hcw, if_pos hj, hsl]
          ring
        unfold slackVal at hfin
        rw [updateLabeling_costMatrix] at hfin
        rw [show (h.updateLabeling mv).costMatrix = h.costMatrix from rfl]
        linarith
    · -- job_matched
      intro j hj
      rw [updateLabeling_parent] at hj
      obtain ⟨w, hw1, hw2⟩ := hp.job_matched j hj
      refine ⟨w, ?_, ?_⟩
      · rw [updateLabeling_matchWorkerByJob]; exact hw1
      · rw [updateLabeling_committed]; exact hw2
    · -- worker_src
      intro w hw
      rw [updateLabeling_committed] at hw
      rcases hp.worker_src w hw with hl | ⟨j, hj1, hj2⟩
      · left
        rw [updateLabeling_matchJobByWorker]
        exact hl
      · right
        refine ⟨j, ?_, ?_⟩
        · rw [updateLabeling_parent]; exact hj1
        · rw [updateLabeling_matchWorkerByJob]; exact hj2
    · -- card
      have e1 : committedSet (h.updateLabeling mv) = committedSet h := rfl
      have e2 : committedJobs (h.updateLabeling mv) = committedJobs h := rfl
      rw [e1, e2]
      exact hp.card_cw
    · -- msv_witness
      intro j hj
      rw [updateLabeling_parent] at hj
      obtain ⟨w₂, hmsw₂, hcw₂, hsl₂⟩ := hp.msv_witness j hj
      refine ⟨w₂, ?_, ?_, ?_⟩
      · rw [updateLabeling_minSlackWorker]; exact hmsw₂
      · rw [updateLabeling_committed]; exact hcw₂
      · rw [hslack' w₂ j, if_pos hcw₂, if_neg (by simpa using hj), updateLabeling_msv,
          if_neg (by simpa using hj), hsl₂]
        ring
    · -- msv_min
      intro j hj w hw
      rw [updateLabeling_parent] at hj
      rw [updateLabeling_committed] at hw
      rw [hslack' w j, if_pos hw, if_neg (by simpa using hj), updateLabeling_msv,
        if_neg (by simpa using hj)]
      have := hp.msv_min j hj w hw
      linarith
    · -- rank
      obtain ⟨rank, hbound, hdec⟩ := hp.rank_ex
      refine ⟨rank, ?_, ?_⟩
      · intro j hj
        rw [updateLabeling_parent] at hj
        have e2 : committedJobs (h.updateLabeling mv) = committedJobs h := rfl
        rw [e2]
        exact hbound j hj
      · intro j hj w hjw
        rw [updateLabeling_parent] at hj hjw
        rcases hdec j hj w hjw with hl | ⟨j', hj'1, hj'2, hj'3⟩
        · left
          rw [updateLabeling_matchJobByWorker]
          exact hl
        · right
          refine ⟨j', ?_, ?_, hj'3⟩
          · rw [updateLabeling_matchJobByWorker]; exact hj'1
          · rw [updateLabeling_parent]; exact hj'2
    · exact hcw₀
    · exact hpmj
    · rw [hslack' w₀ mj, if_pos hcw₀, if_neg (by simpa using hpmj), hslack₀, hmv]
      ring
  · rw [if_neg hpos] at hh1
    subst hh1
    have hz : mv = 0 := by
      have hge := (dualFeasible_iff_slack _).mp hp.g.feas w₀ mj
      rw [hslack₀, ← hmv] at hge
      push_neg at hpos
      linarith
    exact ⟨hp, hcw₀, hpmj, by rw [hslack₀, ← hmv, hz], rfl, rfl, rfl, rfl, rfl, rfl, rfl, rfl⟩

lemma commitJob_parent_apply (h : HungarianAlgorithm n) (mj : Fin n) (mw : ℤ) (j : Fin n) :
    (h.commitJob mj mw).parentWorkerByCommittedJob j =
      if j = mj then mw else h.parentWorkerByCommittedJob j := by
  rw [commitJob_parent, Function.update_apply]

lemma commitWorker_committed_apply (h : HungarianAlgorithm n) (w w' : Fin n) :
    (h.commitWorker w).committedWorkers w' =
      if w' = w then true else h.committedWorkers w' := by
  rw [commitWorker_committed, Function.update_apply]

lemma updateSlacksFor_msv (h : HungarianAlgorithm n) (w j : Fin n) :
    (h.updateSlacksFor w).minSlackValueByJob j =
      if h.parentWorkerByCommittedJob j = -1 ∧
          h.costMatrix w j - h.labelByWorker w - h.labelByJob j < h.minSlackValueByJob j
      then h.costMatrix w j - h.labelByWorker w - h.labelByJob j
      else h.minSlackValueByJob j := rfl

lemma updateSlacksFor_msw (h : HungarianAlgorithm n) (w j : Fin n) :
    (h.updateSlacksFor w).minSlackWorkerByJob j =
      if h.parentWorkerByCommittedJob j = -1 ∧
          h.costMatrix w j - h.labelByWorker w - h.labelByJob j < h.minSlackValueByJob j
      then (w.val : ℤ)
      else h.minSlackWorkerByJob j := rfl

/-- After committing job `mj` (with tight parent edge to the committed worker
`w₀`), the tree facts extend: the committed-job set gains `mj`, every
committed job keeps a tight parent edge into the committed workers, and the
rank certificate extends. -/
lemma commitJob_tree (h1 : HungarianAlgorithm n) (hp : PhaseInv h1) (mj w₀ : Fin n)
    (hcw₀ : h1.committedWorkers w₀ = true)
    (hpmj : h1.parentWorkerByCommittedJob mj = -1)
    (hsl₀ : slackVal h1 w₀ mj = 0) :
    committedJobs (h1.commitJob mj (w₀.val : ℤ)) = insert mj (committedJobs h1) ∧
      (committedJobs (h1.commitJob mj (w₀.val : ℤ))).card = (committedJobs h1).card + 1 ∧
      (∀ j : Fin n, (h1.commitJob mj (w₀.val : ℤ)).parentWorkerByCommittedJob j ≠ -1 →
        ∃ w : Fin n,
          (h1.commitJob mj (w₀.val : ℤ)).parentWorkerByCommittedJob j = (w.val : ℤ) ∧
            h1.committedWorkers w = true ∧
            h1.labelByWorker w + h1.labelByJob j = h1.costMatrix w j) ∧
      ∃ rank' : Fin n → ℕ,
        (∀ j : Fin n, (h1.commitJob mj (w₀.val : ℤ)).parentWorkerByCommittedJob j ≠ -1 →
          rank' j < (committedJobs (h1.commitJob mj (w₀.val : ℤ))).card) ∧
          RankDec (h1.commitJob mj (w₀.val : ℤ)) rank' := by
  have hmem : ∀ j : Fin n,
      (h1.commitJob mj (w₀.val : ℤ)).parentWorkerByCommittedJob j ≠ -1 ↔
        (j = mj ∨ h1.parentWorkerByCommittedJob j ≠ -1) := by
    intro j
    rw [commitJob_parent_apply]
    by_cases hj : j = mj
    · simp [hj, coe_val_ne_neg_one w₀]
    · simp [hj]
  have hnotmem : mj ∉ committedJobs h1 := by
    unfold committedJobs
    rw [Finset.mem_filter]
    rintro ⟨_, hc⟩
    exact hc hpmj
  have hins : committedJobs (h1.commitJob mj (w₀.val : ℤ)) = insert mj (committedJobs h1) := by
    unfold committedJobs
    ext j
    rw [Finset.mem_filter, Finset.mem_insert, Finset.mem_filter]
    constructor
    · rintro ⟨_, hj⟩
      rcases (hmem j).mp hj with hj' | hj'
      · exact Or.inl hj'
      · exact Or.inr ⟨Finset.mem_univ j, hj'⟩
    · rintro (hj' | ⟨_, hj'⟩)
      · exact ⟨Finset.mem_univ j, (hmem j).mpr (Or.inl hj')⟩
      · exact ⟨Finset.mem_univ j, (hmem j).mpr (Or.inr hj')⟩
  have hcard : (committedJobs (h1.commitJob mj (w₀.val : ℤ))).card =
      (committedJobs h1).card + 1 := by
    rw [hins, Finset.card_insert_of_not_mem hnotmem]
  obtain ⟨rank, hbound, hdec⟩ := hp.rank_ex
  refine ⟨hins, hcard, ?_, ?_⟩
  · intro j hj
    rcases (hmem j).mp hj with rfl | hj'
    · refine ⟨w₀, ?_, hcw₀, ?_⟩
      · rw [commitJob_parent_apply, if_pos rfl]
      · unfold slackVal at hsl₀
        linarith
    · obtain ⟨w, hpar, hcw, htree⟩ := hp.par_committed j hj'
      have hne : j ≠ mj := by
        rintro rfl
        exact hj' hpmj
      refine ⟨w, ?_, hcw, htree⟩
      rw [commitJob_parent_apply, if_neg hne]
      exact hpar
  · refine ⟨Function.update rank mj (committedJobs h1).card, ?_, ?_⟩
    · intro j hj
      rw [hcard]
      rcases (hmem j).mp hj with rfl | hj'
      · rw [Function.update_same]
        omega
      · have hne : j ≠ mj := by
          rintro rfl
          exact hj' hpmj
        rw [Function.update_apply, if_neg hne]
        have := hbound j hj'
        omega
    · intro j hj w hjw
      rw [commitJob_matchJobByWorker]
      rcases (hmem j).mp hj with rfl | hj'
      · rw [commitJob_parent_apply, if_pos rfl] at hjw
        have hww₀ : w = w₀ := coe_val_inj hjw.symm
        subst hww₀
        rcases hp.worker_src w hcw₀ with hl | ⟨j', hj'1, hj'2⟩
        · exact Or.inl hl
        · right
          have hmjw := hp.g.matchInv.mwj_mjw j' w hj'2
          have hne' : j' ≠ j := by
            rintro rfl
            exact hj'1 hpmj
          refine ⟨j', hmjw, (hmem j').mpr (Or.inr hj'1), ?_⟩
          rw [Function.update_same, Function.update_apply, if_neg hne']
          have : j' ∈ committedJobs h1 := by
            unfold committedJobs
            rw [Finset.mem_filter]
            exact ⟨Finset.mem_univ j', hj'1⟩
          exact hbound j' hj'1
      · have hne : j ≠ mj := by
          rintro rfl
          exact hj' hpmj
        rw [commitJob_parent_apply, if_neg hne] at hjw
        rcases hdec j hj' w hjw with hl | ⟨j', hj'1, hj'2, hj'3⟩
        · exact Or.inl hl
        · right
          have hne' : j' ≠ mj := by
            rintro rfl
            exact hj'2 hpmj
          refine ⟨j', hj'1, (hmem j').mpr (Or.inr hj'2), ?_⟩
          rw [Function.update_apply, if_neg hne', Function.update_apply, if_neg hne]
          exact hj'3

/-- The non-augmenting iteration step: committing the matched worker of the
newly committed job and refreshing the slack cache re-establishes the phase
invariant, with one more committed job. -/
lemma nonaugment_step (h1 : HungarianAlgorithm n) (hp : PhaseInv h1) (mj w₀ w₁ : Fin n)
    (hcw₀ : h1.committedWorkers w₀ = true)
    (hpmj : h1.parentWorkerByCommittedJob mj = -1)
    (hsl₀ : slackVal h1 w₀ mj = 0)
    (hmwj₁ : h1.matchWorkerByJob mj = (w₁.val : ℤ)) :
    PhaseInv (((h1.commitJob mj (w₀.val : ℤ)).commitWorker w₁).updateSlacksFor w₁) ∧
      (committedJobs (((h1.commitJob mj (w₀.val : ℤ)).commitWorker w₁).updateSlacksFor w₁)).card
        = (committedJobs h1).card + 1 := by
  obtain ⟨hins, hcard, hpar2, rank', hbound', hdec'⟩ :=
    commitJob_tree h1 hp mj w₀ hcw₀ hpmj hsl₀
  have hmjw₁ : h1.matchJobByWorker w₁ = (mj.val : ℤ) := hp.g.matchInv.mwj_mjw mj w₁ hmwj₁
  -- the matched worker of the fresh job is not yet committed
  have hw₁new : h1.committedWorkers w₁ ≠ true := by
    intro hcw₁
    rcases hp.worker_src w₁ hcw₁ with hl | ⟨j', hj'1, hj'2⟩
    · rw [hmjw₁] at hl
      exact coe_val_ne_neg_one mj hl
    · have := hp.g.matchInv.mwj_mjw j' w₁ hj'2
      rw [hmjw₁] at this
      rw [coe_val_inj this] at hpmj
      exact hj'1 hpmj
  set h4 := ((h1.commitJob mj (w₀.val : ℤ)).commitWorker w₁).updateSlacksFor w₁ with hh4
  have hpar4 : ∀ j : Fin n, h4.parentWorkerByCommittedJob j =
      (h1.commitJob mj (w₀.val : ℤ)).parentWorkerByCommittedJob j := fun _ => rfl
  have hcw4 : ∀ w : Fin n, h4.committedWorkers w =
      if w = w₁ then true else h1.committedWorkers w := by
    intro w
    rw [hh4, updateSlacksFor_committed, commitWorker_committed_apply, commitJob_committed]
  have hjobs4 : committedJobs h4 = committedJobs (h1.commitJob mj (w₀.val : ℤ)) := rfl
  have hset4 : committedSet h4 = insert w₁ (committedSet h1) := by
    unfold committedSet
    ext w
    rw [Finset.mem_filter, Finset.mem_insert, Finset.mem_filter, hcw4 w]
    by_cases hw : w = w₁
    · simp [hw]
    · simp [hw]
  have hw₁notmem : w₁ ∉ committedSet h1 := by
    unfold committedSet
    rw [Finset.mem_filter]
    rintro ⟨_, hc⟩
    exact hw₁new hc
  -- slack values of h4 agree with h1 (labels and costs untouched)
  have hslack4 : ∀ w j : Fin n, slackVal h4 w j = slackVal h1 w j := fun _ _ => rfl
  have hmsv4 : ∀ j : Fin n, h1.parentWorkerByCommittedJob j = -1 → j ≠ mj →
      h4.minSlackValueByJob j =
        if slackVal h1 w₁ j < h1.minSlackValueByJob j then slackVal h1 w₁ j
        else h1.minSlackValueByJob j := by
    intro j hj hne
    rw [hh4, updateSlacksFor_msv, commitWorker_parent, commitJob_parent_apply, if_neg hne]
    by_cases hlt : slackVal h1 w₁ j < h1.minSlackValueByJob j
    · rw [if_pos ⟨hj, hlt⟩, if_pos hlt]
      rfl
    · rw [if_neg ?_, if_neg hlt]
      · rfl
      · rintro ⟨_, hc⟩
        exact hlt hc
  have hmsw4 : ∀ j : Fin n, h1.parentWorkerByCommittedJob j = -1 → j ≠ mj →
      h4.minSlackWorkerByJob j =
        if slackVal h1 w₁ j < h1.minSlackValueByJob j then (w₁.val : ℤ)
        else h1.minSlackWorkerByJob j := by
    intro j hj hne
    rw [hh4, updateSlacksFor_msw, commitWorker_parent, commitJob_parent_apply, if_neg hne]
    by_cases hlt : slackVal h1 w₁ j < h1.minSlackValueByJob j
    · rw [if_pos ⟨hj, hlt⟩, if_pos hlt]
    · rw [if_neg ?_, if_neg hlt]
      · rfl
      · rintro ⟨_, hc⟩
        exact hlt hc
  have hpar_char : ∀ j : Fin n, h4.parentWorkerByCommittedJob j = -1 ↔
      (j ≠ mj ∧ h1.parentWorkerByCommittedJob j = -1) := by
    intro j
    rw [hpar4, commitJob_parent_apply]
    by_cases hj : j = mj
    · simp [hj, coe_val_ne_neg_one w₀]
    · simp [hj]
  refine ⟨⟨?_, ?_, ?_, ?_, ?_, ?_, ?_, ?_⟩, ?_⟩
  · exact hp.g.of_fields rfl rfl rfl rfl rfl
  · -- par_committed
    intro j hj
    rw [hpar4] at hj
    obtain ⟨w, hw1, hw2, hw3⟩ := hpar2 j hj
    refine ⟨w, ?_, ?_, hw3⟩
    · rw [hpar4]; exact hw1
    · rw [hcw4 w]
      by_cases hw : w = w₁
      · rw [if_pos hw]
      · rw [if_neg hw]; exact hw2
  · -- job_matched
    intro j hj
    rw [hpar4, commitJob_parent_apply] at hj
    by_cases hjmj : j = mj
    · subst hjmj
      refine ⟨w₁, hmwj₁, ?_⟩
      rw [hcw4 w₁, if_pos rfl]
    · rw [if_neg hjmj] at hj
      obtain ⟨w, hw1, hw2⟩ := hp.job_matched j hj
      refine ⟨w, hw1, ?_⟩
      rw [hcw4 w]
      by_cases hw : w = w₁
      · rw [if_pos hw]
      · rw [if_neg hw]; exact hw2
  · -- worker_src
    intro w hw
    rw [hcw4 w] at hw
    by_cases hww₁ : w = w₁
    · subst hww₁
      right
      refine ⟨mj, ?_, hmwj₁⟩
      rw [hpar4, commitJob_parent_apply, if_pos rfl]
      exact coe_val_ne_neg_one w₀
    · rw [if_neg hww₁] at hw
      rcases hp.worker_src w hw with hl | ⟨j, hj1, hj2⟩
      · exact Or.inl hl
      · right
        refine ⟨j, ?_, hj2⟩
        rw [hpar4, commitJob_parent_apply]
        by_cases hjmj : j = mj
        · rw [if_pos hjmj]; exact coe_val_ne_neg_one w₀
        · rw [if_neg hjmj]; exact hj1
  · -- card
    rw [hjobs4, hcard, hset4, Finset.card_insert_of_not_mem hw₁notmem, hp.card_cw]
  · -- msv_witness
    intro j hj
    rw [hpar_char j] at hj
    obtain ⟨hne, hj1⟩ := hj
    by_cases hlt : slackVal h1 w₁ j < h1.minSlackValueByJob j
    · refine ⟨w₁, ?_, ?_, ?_⟩
      · rw [hmsw4 j hj1 hne, if_pos hlt]
      · rw [hcw4 w₁, if_pos rfl]
      · rw [hslack4, hmsv4 j hj1 hne, if_pos hlt]
    · obtain ⟨w₂, hw2a, hw2b, hw2c⟩ := hp.msv_witness j hj1
      refine ⟨w₂, ?_, ?_, ?_⟩
      · rw [hmsw4 j hj1 hne, if_neg hlt]; exact hw2a
      · rw [hcw4 w₂]
        by_cases hw : w₂ = w₁
        · rw [if_pos hw]
        · rw [if_neg hw]; exact hw2b
      · rw [hslack4, hmsv4 j hj1 hne, if_neg hlt]; exact hw2c
  · -- msv_min
    intro j hj w hw
    rw [hpar_char j] at hj
    obtain ⟨hne, hj1⟩ := hj
    rw [hcw4 w] at hw
    rw [hslack4, hmsv4 j hj1 hne]
    by_cases hww₁ : w = w₁
    · subst hww₁
      by_cases hlt : slackVal h1 w j < h1.minSlackValueByJob j
      · rw [if_pos hlt]
      · rw [if_neg hlt]
        exact le_of_not_lt hlt
    · rw [if_neg hww₁] at hw
      have hmin := hp.msv_min j hj1 w hw
      by_cases hlt : slackVal h1 w₁ j < h1.minSlackValueByJob j
      · rw [if_pos hlt]
        linarith
      · rw [if_neg hlt]
        exact hmin
  · -- rank
    refine ⟨rank', ?_, ?_⟩
    · intro j hj
      rw [hpar4] at hj
      rw [hjobs4]
      exact hbound' j hj
    · intro j hj w hjw
      rw [hpar4] at hj hjw
      rcases hdec' j hj w hjw with hl | ⟨j', hj'1, hj'2, hj'3⟩
      · left
        exact hl
      · right
        refine ⟨j', hj'1, ?_, hj'3⟩
        rw [hpar4]
        exact hj'2
  · rw [hjobs4]
    exact hcard

/-! ## The augmenting path: chains and the walk -/

lemma walkChain_single (t : HungarianAlgorithm n) (c p : Fin n) :
    WalkChain t [(c, p)] ↔ t.matchJobByWorker p = -1 := Iff.rfl

lemma walkChain_cons₂ (t : HungarianAlgorithm n) (c p c' p' : Fin n)
    (rest : List (Fin n × Fin n)) :
    WalkChain t ((c, p) :: (c', p') :: rest) ↔
      t.matchJobByWorker p = (c'.val : ℤ) ∧
        t.parentWorkerByCommittedJob c' = (p'.val : ℤ) ∧
        WalkChain t ((c', p') :: rest) := Iff.rfl

lemma walkChain_of_agree (t t' : HungarianAlgorithm n) :
    ∀ l, WalkChain t l →
      (∀ pr ∈ l, t'.matchJobByWorker pr.2 = t.matchJobByWorker pr.2) →
      (∀ pr ∈ l, t'.parentWorkerByCommittedJob pr.1 = t.parentWorkerByCommittedJob pr.1) →
      WalkChain t' l := by
  intro l
  induction l with
  | nil => intro _ _ _; trivial
  | cons hd tl ih =>
    obtain ⟨c, p⟩ := hd
    cases tl with
    | nil =>
      intro hc hm _
      rw [walkChain_single] at hc ⊢
      rw [hm (c, p) (List.mem_singleton.mpr rfl)]
      exact hc
    | cons hd' rest =>
      obtain ⟨c', p'⟩ := hd'
      intro hc hm hpar
      rw [walkChain_cons₂] at hc ⊢
      refine ⟨?_, ?_, ?_⟩
      · rw [hm (c, p) (List.mem_cons_self _ _)]
        exact hc.1
      · rw [hpar (c', p') (List.mem_cons_of_mem _ (List.mem_cons_self _ _))]
        exact hc.2.1
      · exact ih hc.2.2 (fun pr hpr => hm pr (List.mem_cons_of_mem _ hpr))
          (fun pr hpr => hpar pr (List.mem_cons_of_mem _ hpr))

lemma chain_next (t : HungarianAlgorithm n) :
    ∀ l, WalkChain t l → ∀ pr ∈ l,
      t.matchJobByWorker pr.2 = -1 ∨
        ∃ cq, cq ∈ (l.map Prod.fst).tail ∧ t.matchJobByWorker pr.2 = (cq.val : ℤ) := by
  intro l
  induction l with
  | nil => intro _ pr hpr; cases hpr
  | cons hd tl ih =>
    obtain ⟨c, p⟩ := hd
    cases tl with
    | nil =>
      intro hc pr hpr
      rw [List.mem_singleton] at hpr
      subst hpr
      exact Or.inl hc
    | cons hd' rest =>
      obtain ⟨c', p'⟩ := hd'
      intro hc pr hpr
      rw [walkChain_cons₂] at hc
      rcases List.mem_cons.mp hpr with rfl | hpr'
      · right
        exact ⟨c', by simp, hc.1⟩
      · rcases ih hc.2.2 pr hpr' with hl | ⟨cq, hcq1, hcq2⟩
        · exact Or.inl hl
        · right
          refine ⟨cq, ?_, hcq2⟩
          simp only [List.map_cons, List.tail_cons] at hcq1 ⊢
          exact List.mem_cons_of_mem _ hcq1

lemma chain_workers_nodup (t : HungarianAlgorithm n) :
    ∀ l, WalkChain t l → (l.map Prod.fst).Nodup → (l.map Prod.snd).Nodup := by
  intro l
  induction l with
  | nil => intro _ _; simp
  | cons hd tl ih =>
    obtain ⟨c, p⟩ := hd
    cases tl with
    | nil => intro _ _; simp
    | cons hd' rest =>
      obtain ⟨c', p'⟩ := hd'
      intro hc hjobs
      rw [walkChain_cons₂] at hc
      rw [List.map_cons, List.nodup_cons] at hjobs ⊢
      refine ⟨?_, ih hc.2.2 hjobs.2⟩
      intro hmem
      obtain ⟨pr, hpr, hpr2⟩ := List.mem_map.mp hmem
      rcases chain_next t _ hc.2.2 pr hpr with hl | ⟨cq, hcq1, hcq2⟩
      · rw [hpr2, hc.1] at hl
        exact coe_val_ne_neg_one c' hl
      · rw [hpr2, hc.1] at hcq2
        rw [coe_val_inj hcq2] at hjobs
        simp only [List.map_cons, List.tail_cons] at hcq1
        rw [List.map_cons, List.nodup_cons] at hjobs
        exact hjobs.2.1 hcq1

lemma chain_jobs_matched (t : HungarianAlgorithm n) :
    ∀ (path : List (Fin n × Fin n)) (c p : Fin n), WalkChain t ((c, p) :: path) →
      ∀ pr ∈ path, ∃ q, q ∈ ((c, p) :: path).map Prod.snd ∧
        t.matchJobByWorker q = (pr.1.val : ℤ) := by
  intro path
  induction path with
  | nil => intro c p _ pr hpr; cases hpr
  | cons hd rest ih =>
    obtain ⟨c', p'⟩ := hd
    intro c p hc pr hpr
    rw [walkChain_cons₂] at hc
    rcases List.mem_cons.mp hpr with rfl | hpr'
    · exact ⟨p, by simp, hc.1⟩
    · obtain ⟨q, hq1, hq2⟩ := ih c' p' hc.2.2 pr hpr'
      exact ⟨q, List.mem_cons_of_mem _ hq1, hq2⟩

lemma chain_last (t : HungarianAlgorithm n) :
    ∀ (l : List (Fin n × Fin n)) (hne : l ≠ []), WalkChain t l →
      t.matchJobByWorker (l.getLast hne).2 = -1 := by
  intro l
  induction l with
  | nil => intro hne; exact absurd rfl hne
  | cons hd tl ih =>
    obtain ⟨c, p⟩ := hd
    cases tl with
    | nil => intro _ hc; exact hc
    | cons hd' rest =>
      obtain ⟨c', p'⟩ := hd'
      intro hne hc
      rw [walkChain_cons₂] at hc
      have htail := ih (List.cons_ne_nil _ _) hc.2.2
      rw [List.getLast_cons (List.cons_ne_nil _ _)]
      exact htail

/-- From the rank certificate a complete augmenting chain can be built from
any committed job with a tight parent edge. -/
lemma chain_exists (t : HungarianAlgorithm n) (rank : Fin n → ℕ)
    (hdec : RankDec t rank)
    (hpc : ∀ j : Fin n, t.parentWorkerByCommittedJob j ≠ -1 →
      ∃ w : Fin n, t.parentWorkerByCommittedJob j = (w.val : ℤ) ∧
        t.labelByWorker w + t.labelByJob j = t.costMatrix w j) :
    ∀ (B : ℕ) (c p : Fin n), rank c < B →
      t.parentWorkerByCommittedJob c = (p.val : ℤ) →
      t.labelByWorker p + t.labelByJob c = t.costMatrix p c →
      ∃ path : List (Fin n × Fin n),
        WalkChain t ((c, p) :: path) ∧
          (∀ pr ∈ (c, p) :: path,
            t.labelByWorker pr.2 + t.labelByJob pr.1 = t.costMatrix pr.2 pr.1) ∧
          (∀ pr ∈ path, t.parentWorkerByCommittedJob pr.1 ≠ -1 ∧ rank pr.1 < rank c) ∧
          List.Pairwise (fun a b => rank b.1 < rank a.1) ((c, p) :: path) := by
  intro B
  induction B with
  | zero => intro c p hB; omega
  | succ B ih =>
    intro c p hB hpar htight
    have hcc : t.parentWorkerByCommittedJob c ≠ -1 := by
      rw [hpar]; exact coe_val_ne_neg_one p
    rcases hdec c hcc p hpar with hl | ⟨c', hc'1, hc'2, hc'3⟩
    · refine ⟨[], hl, ?_, by simp, by simp⟩
      intro pr hpr
      rw [List.mem_singleton] at hpr
      subst hpr
      exact htight
    · obtain ⟨p', hp'1, hp'2⟩ := hpc c' hc'2
      obtain ⟨path, hchain, htights, hbounds, hpw⟩ := ih c' p' (by omega) hp'1 hp'2
      refine ⟨(c', p') :: path, ?_, ?_, ?_, ?_⟩
      · rw [walkChain_cons₂]
        exact ⟨hc'1, hp'1, hchain⟩
      · intro pr hpr
        rcases List.mem_cons.mp hpr with rfl | hpr'
        · exact htight
        · exact htights pr hpr'
      · intro pr hpr
        rcases List.mem_cons.mp hpr with rfl | hpr'
        · exact ⟨hc'2, hc'3⟩
        · have hb := hbounds pr hpr'
          exact ⟨hb.1, lt_trans hb.2 hc'3⟩
      · rw [List.pairwise_cons]
        refine ⟨?_, hpw⟩
        intro b hb
        rcases List.mem_cons.mp hb with rfl | hb'
        · exact hc'3
        · exact lt_trans (hbounds b hb').2 hc'3

/-- The augmenting walk follows a chain: it succeeds and rewires exactly the
chain's pairs, leaving every other entry of the matching untouched. -/
lemma augmentWalk_spec :
    ∀ (path : List (Fin n × Fin n)) (t : HungarianAlgorithm n) (c p : Fin n) (fuel : ℕ),
      WalkChain t ((c, p) :: path) →
      (((c, p) :: path).map Prod.fst).Nodup →
      (((c, p) :: path).map Prod.snd).Nodup →
      path.length < fuel →
      ∃ t', augmentWalk fuel t c p = some t' ∧
        (∀ w : Fin n, w ∉ ((c, p) :: path).map Prod.snd →
          t'.matchJobByWorker w = t.matchJobByWorker w) ∧
        (∀ j : Fin n, j ∉ ((c, p) :: path).map Prod.fst →
          t'.matchWorkerByJob j = t.matchWorkerByJob j) ∧
        (∀ pr ∈ (c, p) :: path, t'.matchJobByWorker pr.2 = (pr.1.val : ℤ) ∧
          t'.matchWorkerByJob pr.1 = (pr.2.val : ℤ)) ∧
        t'.costMatrix = t.costMatrix ∧ t'.labelByWorker = t.labelByWorker ∧
          t'.labelByJob = t.labelByJob ∧ t'.rows = t.rows ∧ t'.cols = t.cols ∧
          t'.parentWorkerByCommittedJob = t.parentWorkerByCommittedJob ∧
          t'.committedWorkers = t.committedWorkers := by
  intro path
  induction path with
  | nil =>
    intro t c p fuel hc _ _ hfuel
    obtain ⟨f, rfl⟩ : ∃ f, fuel = f + 1 := ⟨fuel - 1, by omega⟩
    rw [walkChain_single] at hc
    refine ⟨t.matchWJ p c, ?_, ?_, ?_, ?_, rfl, rfl, rfl, rfl, rfl, rfl, rfl⟩
    · show (if t.matchJobByWorker p = -1 then some (t.matchWJ p c)
        else match toIdx n (t.matchJobByWorker p) with
          | none => none
          | some cj =>
            match toIdx n ((t.matchWJ p c).parentWorkerByCommittedJob cj) with
            | none => none
            | some pw => augmentWalk f (t.matchWJ p c) cj pw) = some (t.matchWJ p c)
      rw [if_pos hc]
    · intro w hw
      rw [matchWJ_matchJobByWorker, Function.update_apply, if_neg ?_]
      intro hwp
      exact hw (by rw [hwp]; simp)
    · intro j hj
      rw [matchWJ_matchWorkerByJob, Function.update_apply, if_neg ?_]
      intro hjc
      exact hj (by rw [hjc]; simp)
    · intro pr hpr
      rw [List.mem_singleton] at hpr
      subst hpr
      constructor
      · rw [matchWJ_matchJobByWorker, Function.update_same]
      · rw [matchWJ_matchWorkerByJob, Function.update_same]
  | cons hd rest ih =>
    obtain ⟨c₂, p₂⟩ := hd
    intro t c p fuel hc hjobs hworkers hfuel
    obtain ⟨f, rfl⟩ : ∃ f, fuel = f + 1 := ⟨fuel - 1, by omega⟩
    rw [walkChain_cons₂] at hc
    obtain ⟨hnext, hpar₂, htailchain⟩ := hc
    -- the new state after the head rewiring
    have hpnotin : p ∉ ((c₂, p₂) :: rest).map Prod.snd := by
      rw [List.map_cons, List.nodup_cons] at hworkers
      exact hworkers.1
    have hcnotin : c ∉ ((c₂, p₂) :: rest).map Prod.fst := by
      rw [List.map_cons, List.nodup_cons] at hjobs
      exact hjobs.1
    have htailjobs : (((c₂, p₂) :: rest).map Prod.fst).Nodup := by
      rw [List.map_cons, List.nodup_cons] at hjobs
      exact hjobs.2
    have htailworkers : (((c₂, p₂) :: rest).map Prod.snd).Nodup := by
      rw [List.map_cons, List.nodup_cons] at hworkers
      exact hworkers.2
    have hchain1 : WalkChain (t.matchWJ p c) ((c₂, p₂) :: rest) := by
      refine walkChain_of_agree t _ _ htailchain ?_ ?_
      · intro pr hpr
        rw [matchWJ_matchJobByWorker, Function.update_apply, if_neg ?_]
        intro hprp
        exact hpnotin (by rw [← hprp]; exact List.mem_map_of_mem Prod.snd hpr)
      · intro pr _
        rfl
    obtain ⟨t', heq, hout_w, hout_j, hpairs, hcost, hlw, hlj, hrows, hcols, hpar, hcw⟩ :=
      ih (t.matchWJ p c) c₂ p₂ f hchain1 htailjobs htailworkers (by simpa using hfuel)
    refine ⟨t', ?_, ?_, ?_, ?_, ?_, ?_, ?_, ?_, ?_, ?_, ?_⟩
    · show (if t.matchJobByWorker p = -1 then some (t.matchWJ p c)
        else match toIdx n (t.matchJobByWorker p) with
          | none => none
          | some cj =>
            match toIdx n ((t.matchWJ p c).parentWorkerByCommittedJob cj) with
            | none => none
            | some pw => augmentWalk f (t.matchWJ p c) cj pw) = some t'
      rw [hnext, if_neg (coe_val_ne_neg_one c₂), toIdx_coe]
      show (match toIdx n ((t.matchWJ p c).parentWorkerByCommittedJob c₂) with
        | none => none
        | some pw => augmentWalk f (t.matchWJ p c) c₂ pw) = some t'
      rw [matchWJ_parent, hpar₂, toIdx_coe]
      exact heq
    · intro w hw
      rw [List.map_cons] at hw
      have hw1 : w ∉ ((c₂, p₂) :: rest).map Prod.snd := fun hmem =>
        hw (List.mem_cons_of_mem _ hmem)
      have hw2 : w ≠ p := fun hwp => hw (by rw [hwp]; exact List.mem_cons_self _ _)
      rw [hout_w w hw1, matchWJ_matchJobByWorker, Function.update_apply, if_neg hw2]
    · intro j hj
      rw [List.map_cons] at hj
      have hj1 : j ∉ ((c₂, p₂) :: rest).map Prod.fst := fun hmem =>
        hj (List.mem_cons_of_mem _ hmem)
      have hj2 : j ≠ c := fun hjc => hj (by rw [hjc]; exact List.mem_cons_self _ _)
      rw [hout_j j hj1, matchWJ_matchWorkerByJob, Function.update_apply, if_neg hj2]
    · intro pr hpr
      rcases List.mem_cons.mp hpr with rfl | hpr'
      · constructor
        · rw [hout_w _ hpnotin, matchWJ_matchJobByWorker, Function.update_same]
        · rw [hout_j _ hcnotin, matchWJ_matchWorkerByJob, Function.update_same]
      · exact hpairs pr hpr'
    · rw [hcost]; rfl
    · rw [hlw]; rfl
    · rw [hlj]; rfl
    · rw [hrows]; rfl
    · rw [hcols]; rfl
    · rw [hpar]; rfl
    · rw [hcw]; rfl

/-- The augmenting iteration: when the newly committed job is unmatched, the
walk succeeds and yields a state satisfying the global invariant again, with
every matched worker still matched and one more worker matched. -/
lemma augment_step (h1 : HungarianAlgorithm n) (hp : PhaseInv h1) (mj w₀ : Fin n)
    (hcw₀ : h1.committedWorkers w₀ = true)
    (hpmj : h1.parentWorkerByCommittedJob mj = -1)
    (hsl₀ : slackVal h1 w₀ mj = 0)
    (hunmatched : h1.matchWorkerByJob mj = -1) :
    ∃ t', augmentWalk (n + 1) (h1.commitJob mj (w₀.val : ℤ)) mj w₀ = some t' ∧
      GInv t' ∧ t'.costMatrix = h1.costMatrix ∧ t'.rows = h1.rows ∧ t'.cols = h1.cols ∧
      (∀ w : Fin n, h1.matchJobByWorker w ≠ -1 → t'.matchJobByWorker w ≠ -1) ∧
      ∃ wl : Fin n, h1.matchJobByWorker wl = -1 ∧ t'.matchJobByWorker wl ≠ -1 := by
  obtain ⟨hins, hcard, hpar2, rank', hbound', hdec'⟩ :=
    commitJob_tree h1 hp mj w₀ hcw₀ hpmj hsl₀
  set h2 := h1.commitJob mj (w₀.val : ℤ) with hh2
  have hmjw2 : h2.matchJobByWorker = h1.matchJobByWorker := rfl
  have hmwj2 : h2.matchWorkerByJob = h1.matchWorkerByJob := rfl
  have hpc : ∀ j : Fin n, h2.parentWorkerByCommittedJob j ≠ -1 →
      ∃ w : Fin n, h2.parentWorkerByCommittedJob j = (w.val : ℤ) ∧
        h2.labelByWorker w + h2.labelByJob j = h2.costMatrix w j := by
    intro j hj
    obtain ⟨w, hw1, _, hw3⟩ := hpar2 j hj
    exact ⟨w, hw1, hw3⟩
  have hparmj : h2.parentWorkerByCommittedJob mj = (w₀.val : ℤ) := by
    rw [hh2, commitJob_parent_apply, if_pos rfl]
  have htight₀ : h2.labelByWorker w₀ + h2.labelByJob mj = h2.costMatrix w₀ mj := by
    unfold slackVal at hsl₀
    show h1.labelByWorker w₀ + h1.labelByJob mj = h1.costMatrix w₀ mj
    linarith
  obtain ⟨path, hchain, htights, hbounds, hpw⟩ :=
    chain_exists h2 rank' hdec' hpc (rank' mj + 1) mj w₀ (by omega) hparmj htight₀
  have hjobs : (((mj, w₀) :: path).map Prod.fst).Nodup := by
    have hpw' : List.Pairwise (fun a b : Fin n => rank' b < rank' a)
        (((mj, w₀) :: path).map Prod.fst) :=
      List.Pairwise.map Prod.fst (fun a b hab => hab) hpw
    refine List.Pairwise.imp ?_ hpw'
    intro a b hab
    rintro rfl
    exact lt_irrefl _ hab
  have hworkers : (((mj, w₀) :: path).map Prod.snd).Nodup :=
    chain_workers_nodup h2 _ hchain hjobs
  have hfuel : path.length < n + 1 := by
    have hlen : (((mj, w₀) :: path).map Prod.fst).length ≤ Fintype.card (Fin n) :=
      hjobs.length_le_card
    rw [List.length_map, List.length_cons, Fintype.card_fin] at hlen
    omega
  obtain ⟨t', heq, hout_w, hout_j, hpairs, hcost, hlw, hlj, hrows, hcols, hpar, hcw⟩ :=
    augmentWalk_spec path h2 mj w₀ (n + 1) hchain hjobs hworkers hfuel
  have hout_w1 : ∀ w : Fin n, w ∉ ((mj, w₀) :: path).map Prod.snd →
      t'.matchJobByWorker w = h1.matchJobByWorker w := by
    intro w hw
    rw [hout_w w hw, hmjw2]
  have hout_j1 : ∀ j : Fin n, j ∉ ((mj, w₀) :: path).map Prod.fst →
      t'.matchWorkerByJob j = h1.matchWorkerByJob j := by
    intro j hj
    rw [hout_j j hj, hmwj2]
  have hlw1 : t'.labelByWorker = h1.labelByWorker := hlw
  have hlj1 : t'.labelByJob = h1.labelByJob := hlj
  have hcost1 : t'.costMatrix = h1.costMatrix := hcost
  -- tightness of all chain pairs, in h1's labels
  have htights1 : ∀ pr ∈ (mj, w₀) :: path,
      h1.labelByWorker pr.2 + h1.labelByJob pr.1 = h1.costMatrix pr.2 pr.1 :=
    fun pr hpr => htights pr hpr
  have hmatched_pres : ∀ w : Fin n, h1.matchJobByWorker w ≠ -1 → t'.matchJobByWorker w ≠ -1 := by
    intro w hwm
    by_cases hw : w ∈ ((mj, w₀) :: path).map Prod.snd
    · obtain ⟨pr, hpr, hpr2⟩ := List.mem_map.mp hw
      rw [← hpr2, (hpairs pr hpr).1]
      exact coe_val_ne_neg_one pr.1
    · rw [hout_w1 w hw]
      exact hwm
  refine ⟨t', heq, ⟨⟨?_, ?_, ?_, ?_⟩, ?_, ?_⟩, hcost1, hrows, hcols, hmatched_pres, ?_⟩
  · -- mjw_cases
    intro w
    by_cases hw : w ∈ ((mj, w₀) :: path).map Prod.snd
    · obtain ⟨pr, hpr, hpr2⟩ := List.mem_map.mp hw
      right
      exact ⟨pr.1, by rw [← hpr2, (hpairs pr hpr).1]⟩
    · rw [hout_w1 w hw]
      exact hp.g.matchInv.mjw_cases w
  · -- mwj_cases
    intro j
    by_cases hj : j ∈ ((mj, w₀) :: path).map Prod.fst
    · obtain ⟨pr, hpr, hpr2⟩ := List.mem_map.mp hj
      right
      exact ⟨pr.2, by rw [← hpr2, (hpairs pr hpr).2]⟩
    · rw [hout_j1 j hj]
      exact hp.g.matchInv.mwj_cases j
  · -- mjw_mwj
    intro w j hmatch
    by_cases hw : w ∈ ((mj, w₀) :: path).map Prod.snd
    · obtain ⟨pr, hpr, hpr2⟩ := List.mem_map.mp hw
      have h1m := (hpairs pr hpr).1
      rw [← hpr2] at hmatch
      rw [h1m] at hmatch
      rw [← coe_val_inj hmatch, ← hpr2]
      exact (hpairs pr hpr).2
    · rw [hout_w1 w hw] at hmatch
      by_cases hj : j ∈ ((mj, w₀) :: path).map Prod.fst
      · exfalso
        obtain ⟨pr, hpr, hpr2⟩ := List.mem_map.mp hj
        rcases List.mem_cons.mp hpr with heq' | hpr'
        · -- j is the head job mj, which is unmatched in h1
          have : h1.matchWorkerByJob j = (w.val : ℤ) := hp.g.matchInv.mjw_mwj w j hmatch
          rw [← hpr2, heq'] at this
          rw [hunmatched] at this
          exact coe_val_ne_neg_one w this.symm
        · -- j is a tail job: its h1-partner is a chain worker, but w is outside
          obtain ⟨q, hq1, hq2⟩ := chain_jobs_matched h2 path mj w₀ hchain pr hpr'
          rw [hmjw2] at hq2
          rw [hpr2] at hq2
          have hmwjj := hp.g.matchInv.mjw_mwj w j hmatch
          have hmwjq := hp.g.matchInv.mjw_mwj q j hq2
          rw [hmwjj] at hmwjq
          rw [← coe_val_inj hmwjq] at hq1
          exact hw hq1
      · rw [hout_j1 j hj]
        exact hp.g.matchInv.mjw_mwj w j hmatch
  · -- mwj_mjw
    intro j w hmatch
    by_cases hj : j ∈ ((mj, w₀) :: path).map Prod.fst
    · obtain ⟨pr, hpr, hpr2⟩ := List.mem_map.mp hj
      have h1m := (hpairs pr hpr).2
      rw [← hpr2] at hmatch
      rw [h1m] at hmatch
      rw [← coe_val_inj hmatch, ← hpr2]
      exact (hpairs pr hpr).1
    · rw [hout_j1 j hj] at hmatch
      have hmjww := hp.g.matchInv.mwj_mjw j w hmatch
      by_cases hw : w ∈ ((mj, w₀) :: path).map Prod.snd
      · exfalso
        obtain ⟨pr, hpr, hpr2⟩ := List.mem_map.mp hw
        rcases chain_next h2 _ hchain pr hpr with hl | ⟨cq, hcq1, hcq2⟩
        · rw [hmjw2, hpr2, hmjww] at hl
          exact coe_val_ne_neg_one j hl
        · rw [hmjw2, hpr2, hmjww] at hcq2
          rw [← coe_val_inj hcq2] at hcq1
          exact hj (List.mem_of_mem_tail hcq1)
      · rw [hout_w1 w hw]
        exact hmjww
  · -- feasibility
    intro w j
    rw [hlw1, hlj1, hcost1]
    exact hp.g.feas w j
  · -- tightness
    intro w j hmatch
    rw [hlw1, hlj1, hcost1]
    by_cases hw : w ∈ ((mj, w₀) :: path).map Prod.snd
    · obtain ⟨pr, hpr, hpr2⟩ := List.mem_map.mp hw
      rw [← hpr2] at hmatch
      rw [(hpairs pr hpr).1] at hmatch
      rw [← coe_val_inj hmatch, ← hpr2]
      exact htights1 pr hpr
    · rw [hout_w1 w hw] at hmatch
      exact hp.g.tight w j hmatch
  · -- the newly matched worker: the last worker of the chain
    have hne : ((mj, w₀) :: path) ≠ [] := List.cons_ne_nil _ _
    refine ⟨(((mj, w₀) :: path).getLast hne).2, ?_, ?_⟩
    · have := chain_last h2 _ hne hchain
      rw [hmjw2] at this
      exact this
    · have hmem := List.getLast_mem hne
      rw [(hpairs _ hmem).1]
      exact coe_val_ne_neg_one _

/-- `executePhase` terminates within the fuel budget on any state satisfying
the phase invariant, produces no panic, and completes one augmentation. -/
lemma executePhase_spec :
    ∀ (fuel : ℕ) (h : HungarianAlgorithm n), PhaseInv h →
      n ≤ (committedJobs h).card + fuel →
      ∃ h', executePhase fuel h = some h' ∧ PostPhase h h' := by
  intro fuel
  induction fuel with
  | zero =>
    intro h hp hfuel
    exfalso
    have h1 : (committedSet h).card ≤ n := by
      have := Finset.card_le_univ (committedSet h)
      rwa [Fintype.card_fin] at this
    rw [hp.card_cw] at h1
    omega
  | succ fuel ih =>
    intro h hp hfuel
    have hcj_lt : (committedJobs h).card < n := by
      have h1 : (committedSet h).card ≤ n := by
        have := Finset.card_le_univ (committedSet h)
        rwa [Fintype.card_fin] at this
      rw [hp.card_cw] at h1
      omega
    have hsome : h.findMinSlack ≠ none := by
      rw [Ne, findMinSlack_none_iff]
      intro hall
      have huniv : committedJobs h = Finset.univ := by
        unfold committedJobs
        exact Finset.filter_true_of_mem fun j _ => hall j
      rw [huniv, Finset.card_univ, Fintype.card_fin] at hcj_lt
      omega
    obtain ⟨t, hfms⟩ := Option.ne_none_iff_exists'.mp hsome
    obtain ⟨mw, mj, mv⟩ := t
    obtain ⟨w₀, hmw, hp1, hcw₀, hpmj, hsl₀, e_mjw, e_mwj, e_par, e_cw, e_msw, e_cost,
      e_rows, e_cols⟩ := relabel_spec h hp mw mj mv hfms _ rfl
    have hjobs_eq : committedJobs (if 0 < mv then h.updateLabeling mv else h) =
        committedJobs h := by
      unfold committedJobs
      rw [e_par]
    have hstep : executePhase (fuel + 1) h =
        (if ((if 0 < mv then h.updateLabeling mv else h).commitJob mj mw).matchWorkerByJob mj
            = -1 then
          match toIdx n
              (((if 0 < mv then h.updateLabeling mv else h).commitJob mj
                mw).parentWorkerByCommittedJob mj) with
          | none => none
          | some pw =>
            augmentWalk (n + 1) ((if 0 < mv then h.updateLabeling mv else h).commitJob mj mw)
              mj pw
        else
          match toIdx n
              (((if 0 < mv then h.updateLabeling mv else h).commitJob mj
                mw).matchWorkerByJob mj) with
          | none => none
          | some worker =>
            executePhase fuel
              ((((if 0 < mv then h.updateLabeling mv else h).commitJob mj
                mw).commitWorker worker).updateSlacksFor worker)) := by
      show (match h.findMinSlack with
        | none => none
        | some (minSlackWorker, minSlackJob, minSlackValue) =>
          let h1 := if 0 < minSlackValue then h.updateLabeling minSlackValue else h
          let h2 := h1.commitJob minSlackJob minSlackWorker
          if h2.matchWorkerByJob minSlackJob = -1 then
            match toIdx n (h2.parentWorkerByCommittedJob minSlackJob) with
            | none => none
            | some pw => augmentWalk (n + 1) h2 minSlackJob pw
          else
            match toIdx n (h2.matchWorkerByJob minSlackJob) with
            | none => none
            | some worker =>
              executePhase fuel ((h2.commitWorker worker).updateSlacksFor worker)) = _
      rw [hfms]
    by_cases hb : ((if 0 < mv then h.updateLabeling mv else h).commitJob mj
        mw).matchWorkerByJob mj = -1
    · -- augment branch
      rw [hstep, if_pos hb]
      rw [commitJob_matchWorkerByJob] at hb
      rw [e_mwj] at hb
      have hb1 : (if 0 < mv then h.updateLabeling mv else h).matchWorkerByJob mj = -1 := by
        rw [e_mwj]; exact hb
      obtain ⟨t', hwalk, hg', hc', hr', hcl', hpres, wl, hwl1, hwl2⟩ :=
        augment_step _ hp1 mj w₀ hcw₀ hpmj hsl₀ hb1
      rw [hmw]
      have hparmj : ((if 0 < mv then h.updateLabeling mv else h).commitJob mj
          ((w₀.val : ℤ))).parentWorkerByCommittedJob mj = ((w₀.val : ℤ)) := by
        rw [commitJob_parent_apply, if_pos rfl]
      rw [hparmj, toIdx_coe]
      refine ⟨t', hwalk, hg', ?_, ?_, ?_, ?_, ?_⟩
      · rw [hc', e_cost]
      · rw [hr', e_rows]
      · rw [hcl', e_cols]
      · intro w hw
        refine hpres w ?_
        rw [e_mjw]
        exact hw
      · refine ⟨wl, ?_, hwl2⟩
        rw [e_mjw] at hwl1
        exact hwl1
    · -- non-augment branch
      rw [hstep, if_neg hb]
      rw [commitJob_matchWorkerByJob] at hb
      rcases hp1.g.matchInv.mwj_cases mj with hl | ⟨w₁, hw₁⟩
      · exact absurd hl hb
      · have hmwjspot : ((if 0 < mv then h.updateLabeling mv else h).commitJob mj
            mw).matchWorkerByJob mj = (w₁.val : ℤ) := by
          rw [commitJob_matchWorkerByJob]
          exact hw₁
        rw [hmwjspot, toIdx_coe]
        obtain ⟨hp4, hcard4⟩ := nonaugment_step _ hp1 mj w₀ w₁ hcw₀ hpmj hsl₀ hw₁
        rw [hmw]
        have hcard4' : (committedJobs
            ((((if 0 < mv then h.updateLabeling mv else h).commitJob mj
              ((w₀.val : ℤ))).commitWorker w₁).updateSlacksFor w₁)).card =
            (committedJobs h).card + 1 := by
          rw [hcard4, hjobs_eq]
        obtain ⟨h'', hrec, hpost⟩ := ih _ hp4 (by omega)
        refine ⟨h'', hrec, ?_⟩
        obtain ⟨hg'', hc'', hr'', hcl'', hpres'', wl, hwl1, hwl2⟩ := hpost
        have e4_mjw : ((((if 0 < mv then h.updateLabeling mv else h).commitJob mj
            ((w₀.val : ℤ))).commitWorker w₁).updateSlacksFor w₁).matchJobByWorker =
            h.matchJobByWorker := by
          rw [updateSlacksFor_matchJobByWorker, commitWorker_matchJobByWorker,
            commitJob_matchJobByWorker, e_mjw]
        refine ⟨hg'', ?_, ?_, ?_, ?_, ?_⟩
        · rw [hc'']
          rw [show ((((if 0 < mv then h.updateLabeling mv else h).commitJob mj
            ((w₀.val : ℤ))).commitWorker w₁).updateSlacksFor w₁).costMatrix =
            (if 0 < mv then h.updateLabeling mv else h).costMatrix from rfl, e_cost]
        · rw [hr'']
          rw [show ((((if 0 < mv then h.updateLabeling mv else h).commitJob mj
            ((w₀.val : ℤ))).commitWorker w₁).updateSlacksFor w₁).rows =
            (if 0 < mv then h.updateLabeling mv else h).rows from rfl, e_rows]
        · rw [hcl'']
          rw [show ((((if 0 < mv then h.updateLabeling mv else h).commitJob mj
            ((w₀.val : ℤ))).commitWorker w₁).updateSlacksFor w₁).cols =
            (if 0 < mv then h.updateLabeling mv else h).cols from rfl, e_cols]
        · intro w hw
          refine hpres'' w ?_
          rw [e4_mjw]
          exact hw
        · refine ⟨wl, ?_, hwl2⟩
          rw [e4_mjw] at hwl1
          exact hwl1

/-- The outer loop of `Execute` terminates with a perfect matching on the
padded square problem, preserving the static data and the global
invariant. -/
lemma executeLoop_spec :
    ∀ (fuel : ℕ) (h : HungarianAlgorithm n), GInv h →
      (unmatchedWorkers h).card < fuel →
      ∃ h', executeLoop fuel h = some h' ∧ GInv h' ∧
        (∀ w : Fin n, h'.matchJobByWorker w ≠ -1) ∧
        h'.costMatrix = h.costMatrix ∧ h'.rows = h.rows ∧ h'.cols = h.cols := by
  intro fuel
  induction fuel with
  | zero => intro h _ hfuel; omega
  | succ fuel ih =>
    intro h hg hfuel
    cases hfetch : h.fetchUnmatchedWorker with
    | none =>
      refine ⟨h, ?_, hg, fetchUnmatchedWorker_none h hfetch, rfl, rfl, rfl⟩
      show (match h.fetchUnmatchedWorker with
        | none => some h
        | some w =>
          match executePhase (n + 1) (h.initializePhase w) with
          | none => none
          | some h' => executeLoop fuel h') = some h
      rw [hfetch]
    | some w =>
      have hw := fetchUnmatchedWorker_some h w hfetch
      have hpinit := initializePhase_PhaseInv h w hg hw
      have hcj0 : committedJobs (h.initializePhase w) = ∅ := by
        unfold committedJobs
        rw [Finset.filter_eq_empty_iff]
        intro j _
        rw [initializePhase_parent]
        simp
      obtain ⟨h2, hphase, hpost⟩ :=
        executePhase_spec (n + 1) (h.initializePhase w) hpinit (by rw [hcj0]; simp)
      obtain ⟨hg2, hc2, hr2, hcl2, hpres2, wl, hwl1, hwl2⟩ := hpost
      have hsub : unmatchedWorkers h2 ⊆ unmatchedWorkers h := by
        intro x hx
        unfold unmatchedWorkers at hx ⊢
        rw [Finset.mem_filter] at hx ⊢
        refine ⟨Finset.mem_univ x, ?_⟩
        by_contra hxm
        exact (hpres2 x (by rw [initializePhase_matchJobByWorker]; exact hxm)) hx.2
      have hmem : wl ∈ unmatchedWorkers h := by
        unfold unmatchedWorkers
        rw [Finset.mem_filter]
        rw [initializePhase_matchJobByWorker] at hwl1
        exact ⟨Finset.mem_univ wl, hwl1⟩
      have hnotmem : wl ∉ unmatchedWorkers h2 := by
        unfold unmatchedWorkers
        rw [Finset.mem_filter]
        rintro ⟨_, hc⟩
        exact hwl2 hc
      have hlt : (unmatchedWorkers h2).card < (unmatchedWorkers h).card := by
        refine Finset.card_lt_card ?_
        rw [Finset.ssubset_iff_of_subset hsub]
        exact ⟨wl, hmem, hnotmem⟩
      obtain ⟨h', hloop, hg', hall', hc', hr', hcl'⟩ := ih h2 hg2 (by omega)
      refine ⟨h', ?_, hg', hall', ?_, ?_, ?_⟩
      · show (match h.fetchUnmatchedWorker with
          | none => some h
          | some w =>
            match executePhase (n + 1) (h.initializePhase w) with
            | none => none
            | some h'' => executeLoop fuel h'') = some h'
        rw [hfetch]
        show (match executePhase (n + 1) (h.initializePhase w) with
          | none => none
          | some h'' => executeLoop fuel h'') = some h'
        rw [hphase]
        exact hloop
      · rw [hc', hc2, initializePhase_costMatrix]
      · rw [hr', hr2, initializePhase_rows]
      · rw [hcl', hcl2, initializePhase_cols]

/-! ## Optimality of the final matching -/

/-- A perfect matching state induces a permutation of the padded indices. -/
lemma perm_of_perfect (h : HungarianAlgorithm n) (hg : GInv h)
    (hall : ∀ w : Fin n, h.matchJobByWorker w ≠ -1) :
    ∃ σ : Equiv.Perm (Fin n), ∀ w : Fin n, h.matchJobByWorker w = ((σ w).val : ℤ) := by
  have hex : ∀ w : Fin n, ∃ j : Fin n, h.matchJobByWorker w = (j.val : ℤ) := by
    intro w
    rcases hg.matchInv.mjw_cases w with hl | he
    · exact absurd hl (hall w)
    · exact he
  choose f hf using hex
  have hinj : Function.Injective f := by
    intro w1 w2 heq
    have h1 := hg.matchInv.mjw_mwj w1 (f w1) (hf w1)
    have h2 := hg.matchInv.mjw_mwj w2 (f w2) (hf w2)
    rw [heq] at h1
    rw [h1] at h2
    exact coe_val_inj h2
  refine ⟨Equiv.ofBijective f (Finite.injective_iff_bijective.mp hinj), ?_⟩
  intro w
  exact hf w

/-- LP duality: a perfect matching on tight edges minimizes the total cost
over all permutations, given dual feasibility. -/
lemma matching_optimal (h : HungarianAlgorithm n) (hg : GInv h)
    (σ : Equiv.Perm (Fin n)) (hσ : ∀ w : Fin n, h.matchJobByWorker w = ((σ w).val : ℤ))
    (τ : Equiv.Perm (Fin n)) :
    ∑ w : Fin n, h.costMatrix w (σ w) ≤ ∑ w : Fin n, h.costMatrix w (τ w) := by
  have h1 : ∑ w : Fin n, h.costMatrix w (σ w) =
      ∑ w : Fin n, (h.labelByWorker w + h.labelByJob (σ w)) :=
    Finset.sum_congr rfl fun w _ => (hg.tight w (σ w) (hσ w)).symm
  have h2 : ∑ w : Fin n, (h.labelByWorker w + h.labelByJob (τ w)) ≤
      ∑ w : Fin n, h.costMatrix w (τ w) :=
    Finset.sum_le_sum fun w _ => hg.feas w (τ w)
  have h3 : ∑ w : Fin n, (h.labelByWorker w + h.labelByJob (σ w)) =
      ∑ w : Fin n, (h.labelByWorker w + h.labelByJob (τ w)) := by
    rw [Finset.sum_add_distrib, Finset.sum_add_distrib,
      Equiv.sum_comp σ h.labelByJob, Equiv.sum_comp τ h.labelByJob]
  rw [h1, h3]
  exact h2

/-- `reduce` shifts each entry by a per-row and a per-column constant. -/
lemma reduce_offsets (h : HungarianAlgorithm n) :
    ∃ rmin cmin : Fin n → ℚ, ∀ w j : Fin n,
      (reduce h).costMatrix w j = h.costMatrix w j - rmin w - cmin j := by
  refine ⟨fun w => (infMinFold (List.ofFn (h.costMatrix w))).getD 0,
    fun j => (infMinFold (List.ofFn fun w =>
      h.costMatrix w j - (infMinFold (List.ofFn (h.costMatrix w))).getD 0)).getD 0,
    fun w j => rfl⟩

/-- Sums of a row/column-shifted cost along a permutation differ from the
unshifted sums by a constant independent of the permutation. -/
lemma sum_offsets (cost : Fin n → Fin n → ℚ) (rmin cmin : Fin n → ℚ)
    (σ : Equiv.Perm (Fin n)) :
    ∑ w : Fin n, (cost w (σ w) - rmin w - cmin (σ w)) =
      ∑ w : Fin n, cost w (σ w) - ∑ w : Fin n, rmin w - ∑ j : Fin n, cmin j := by
  rw [Finset.sum_sub_distrib, Finset.sum_sub_distrib, Equiv.sum_comp σ cmin]

/-- The heuristic pipeline (`computeInitialFeasibleSolution` then
`greedyMatch`) on a freshly constructed (possibly reduced) state, followed by
the phase loop with fuel `n + 1`, completes with a perfect matching. -/
lemma pipeline_spec (h0 : HungarianAlgorithm n)
    (hlw : h0.labelByWorker = fun _ => 0)
    (hmjw : h0.matchJobByWorker = fun _ => -1)
    (hmwj : h0.matchWorkerByJob = fun _ => -1) :
    ∃ hf : HungarianAlgorithm n,
      executeLoop (n + 1) h0.computeInitialFeasibleSolution.greedyMatch = some hf ∧
        GInv hf ∧ (∀ w : Fin n, hf.matchJobByWorker w ≠ -1) ∧
        hf.costMatrix = h0.costMatrix ∧ hf.rows = h0.rows ∧ hf.cols = h0.cols := by
  have hg1 : GInv h0.computeInitialFeasibleSolution.greedyMatch :=
    greedyMatch_GInv _ (cifs_GInv h0 hlw hmjw hmwj)
  have hcard : (unmatchedWorkers h0.computeInitialFeasibleSolution.greedyMatch).card < n + 1 := by
    have := Finset.card_le_univ (unmatchedWorkers h0.computeInitialFeasibleSolution.greedyMatch)
    rw [Fintype.card_fin] at this
    omega
  obtain ⟨hf, hloop, hg, hall, hc, hr, hcl⟩ :=
    executeLoop_spec (n + 1) _ hg1 hcard
  obtain ⟨hsc, _, _, hsr, hscl⟩ := greedyMatch_static h0.computeInitialFeasibleSolution
  refine ⟨hf, hloop, hg, hall, ?_, ?_, ?_⟩
  · rw [hc, hsc, cifs_costMatrix]
  · rw [hr, hsr, cifs_rows]
  · rw [hcl, hscl, cifs_cols]

/-- Master theorem for `Execute`: on every successfully constructed instance
it succeeds, the result is the worker-indexed image of a permutation of the
padded indices (entries at padding jobs replaced by `-1`), and that
permutation minimizes the padded input cost over all permutations. -/
theorem Execute_master (m : List (List GoFloat)) (k : ℕ) (h : HungarianAlgorithm k)
    (hok : NewHungarianAlgorithm m = .ok ⟨k, h⟩) :
    ∃ (σ : Equiv.Perm (Fin k)) (r : List ℤ),
      Execute h = some r ∧
        r = (List.finRange k).map
          (fun w => if ((σ w).val : ℤ) ≥ (h.cols : ℤ) then -1 else ((σ w).val : ℤ)) ∧
        ∀ τ : Equiv.Perm (Fin k),
          ∑ w : Fin k, entryQ m w.val ((σ w).val) ≤ ∑ w : Fin k, entryQ m w.val ((τ w).val) := by
  have hok' := newOk_of_ok m k h hok
  obtain ⟨hf, hloop, hg, hall, hc, hr, hcl⟩ :=
    pipeline_spec (reduce h) (by rw [reduce_labelByWorker, hok'.lw_eq])
      (by rw [reduce_matchJobByWorker, hok'.mjw_eq])
      (by rw [reduce_matchWorkerByJob, hok'.mwj_eq])
  obtain ⟨σ, hσ⟩ := perm_of_perfect hf hg hall
  obtain ⟨rmin, cmin, hoff⟩ := reduce_offsets h
  have hopt : ∀ τ : Equiv.Perm (Fin k),
      ∑ w : Fin k, entryQ m w.val ((σ w).val) ≤ ∑ w : Fin k, entryQ m w.val ((τ w).val) := by
    intro τ
    have hle := matching_optimal hf hg σ hσ τ
    rw [hc] at hle
    have hσ' : ∑ w : Fin k, (reduce h).costMatrix w (σ w) =
        ∑ w : Fin k, h.costMatrix w (σ w) - ∑ w : Fin k, rmin w - ∑ j : Fin k, cmin j := by
      rw [← sum_offsets h.costMatrix rmin cmin σ]
      exact Finset.sum_congr rfl fun w _ => hoff w (σ w)
    have hτ' : ∑ w : Fin k, (reduce h).costMatrix w (τ w) =
        ∑ w : Fin k, h.costMatrix w (τ w) - ∑ w : Fin k, rmin w - ∑ j : Fin k, cmin j := by
      rw [← sum_offsets h.costMatrix rmin cmin τ]
      exact Finset.sum_congr rfl fun w _ => hoff w (τ w)
    rw [hσ', hτ'] at hle
    have hcostm : ∀ (ρ : Equiv.Perm (Fin k)),
        ∑ w : Fin k, h.costMatrix w (ρ w) = ∑ w : Fin k, entryQ m w.val ((ρ w).val) :=
      fun ρ => Finset.sum_congr rfl fun w _ => by rw [hok'.cost_eq]
    rw [hcostm σ, hcostm τ] at hle
    linarith
  refine ⟨σ, ((List.finRange k).map fun w =>
      if hf.matchJobByWorker w ≥ (hf.cols : ℤ) then -1
      else hf.matchJobByWorker w).take hf.rows, ?_, ?_, hopt⟩
  · show (match executeLoop (k + 1) h.reduce.computeInitialFeasibleSolution.greedyMatch with
      | none => none
      | some h2 =>
        some
          (((List.finRange k).map fun w =>
              if h2.matchJobByWorker w ≥ (h2.cols : ℤ) then -1
              else h2.matchJobByWorker w).take h2.rows)) = _
    rw [hloop]
  · have hrk : hf.rows = k := by
      rw [hr, reduce_rows, hok'.rows_eq, ← hok'.n_eq]
    have hmap : ((List.finRange k).map fun w =>
        if hf.matchJobByWorker w ≥ (hf.cols : ℤ) then -1 else hf.matchJobByWorker w) =
        (List.finRange k).map
          (fun w => if ((σ w).val : ℤ) ≥ (h.cols : ℤ) then -1 else ((σ w).val : ℤ)) := by
      refine List.map_congr_left fun w _ => ?_
      rw [hσ w, hcl, reduce_cols]
    rw [hmap, hrk]
    rw [List.take_of_length_le (by rw [List.length_map, List.length_finRange])]

/-- Master theorem for the reduce-free variant `ExecuteNoReduce`. -/
theorem ExecuteNoReduce_master (m : List (List GoFloat)) (k : ℕ) (h : HungarianAlgorithm k)
    (hok : NewHungarianAlgorithm m = .ok ⟨k, h⟩) :
    ∃ (σ : Equiv.Perm (Fin k)) (r : List ℤ),
      ExecuteNoReduce h = some r ∧
        r = (List.finRange k).map
          (fun w => if ((σ w).val : ℤ) ≥ (h.cols : ℤ) then -1 else ((σ w).val : ℤ)) ∧
        ∀ τ : Equiv.Perm (Fin k),
          ∑ w : Fin k, entryQ m w.val ((σ w).val) ≤ ∑ w : Fin k, entryQ m w.val ((τ w).val) := by
  have hok' := newOk_of_ok m k h hok
  obtain ⟨hf, hloop, hg, hall, hc, hr, hcl⟩ :=
    pipeline_spec h hok'.lw_eq hok'.mjw_eq hok'.mwj_eq
  obtain ⟨σ, hσ⟩ := perm_of_perfect hf hg hall
  have hopt : ∀ τ : Equiv.Perm (Fin k),
      ∑ w : Fin k, entryQ m w.val ((σ w).val) ≤ ∑ w : Fin k, entryQ m w.val ((τ w).val) := by
    intro τ
    have hle := matching_optimal hf hg σ hσ τ
    rw [hc] at hle
    have hcostm : ∀ (ρ : Equiv.Perm (Fin k)),
        ∑ w : Fin k, h.costMatrix w (ρ w) = ∑ w : Fin k, entryQ m w.val ((ρ w).val) :=
      fun ρ => Finset.sum_congr rfl fun w _ => by rw [hok'.cost_eq]
    rw [hcostm σ, hcostm τ] at hle
    exact hle
  refine ⟨σ, ((List.finRange k).map fun w =>
      if hf.matchJobByWorker w ≥ (hf.cols : ℤ) then -1
      else hf.matchJobByWorker w).take hf.rows, ?_, ?_, hopt⟩
  · show (match executeLoop (k + 1) h.computeInitialFeasibleSolution.greedyMatch with
      | none => none
      | some h2 =>
        some
          (((List.finRange k).map fun w =>
              if h2.matchJobByWorker w ≥ (h2.cols : ℤ) then -1
              else h2.matchJobByWorker w).take h2.rows)) = _
    rw [hloop]
  · have hrk : hf.rows = k := by
      rw [hr, hok'.rows_eq, ← hok'.n_eq]
    have hmap : ((List.finRange k).map fun w =>
        if hf.matchJobByWorker w ≥ (hf.cols : ℤ) then -1 else hf.matchJobByWorker w) =
        (List.finRange k).map
          (fun w => if ((σ w).val : ℤ) ≥ (h.cols : ℤ) then -1 else ((σ w).val : ℤ)) := by
      refine List.map_congr_left fun w _ => ?_
      rw [hσ w, hcl]
    rw [hmap, hrk]
    rw [List.take_of_length_le (by rw [List.length_map, List.length_finRange])]

/-! ## Counting and cost bookkeeping for the returned list -/

lemma countP_finRange (k : ℕ) (p : Fin k → Bool) :
    (List.finRange k).countP p = (Finset.univ.filter fun w => p w = true).card := by
  simp [Finset.card_filter, List.countP_eq_length_filter, Fin.univ_def, Finset.filter]

lemma length_filter_map_finRange (k : ℕ) (f : Fin k → ℤ) (p : ℤ → Bool) :
    (((List.finRange k).map f).filter p).length =
      (Finset.univ.filter fun w => p (f w) = true).card := by
  rw [List.filter_map, List.length_map, ← List.countP_eq_length_filter]
  exact countP_finRange k fun w => p (f w)

lemma card_filter_lt (k cols : ℕ) (hc : cols ≤ k) :
    (Finset.univ.filter fun j : Fin k => j.val < cols).card = cols := by
  have heq : (Finset.univ.filter fun j : Fin k => j.val < cols) =
      (Finset.range cols).attachFin
        (fun m hm => lt_of_lt_of_le (Finset.mem_range.mp hm) hc) := by
    ext j
    simp [Finset.mem_attachFin]
  rw [heq, Finset.card_attachFin, Finset.card_range]

lemma card_filter_ge (k cols : ℕ) (hc : cols ≤ k) :
    (Finset.univ.filter fun j : Fin k => cols ≤ j.val).card = k - cols := by
  have h1 := Finset.filter_card_add_filter_neg_card_eq_card
    (s := (Finset.univ : Finset (Fin k))) (p := fun j : Fin k => j.val < cols)
  have h2 : (Finset.univ.filter fun j : Fin k => ¬ j.val < cols) =
      (Finset.univ.filter fun j : Fin k => cols ≤ j.val) := by
    ext j
    simp [not_lt]
  rw [card_filter_lt k cols hc, h2, Finset.card_univ, Fintype.card_fin] at h1
  omega

lemma card_filter_comp_perm (k : ℕ) (σ : Equiv.Perm (Fin k)) (q : Fin k → Prop)
    [DecidablePred q] :
    (Finset.univ.filter fun w => q (σ w)).card = (Finset.univ.filter q).card := by
  refine Finset.card_bij (fun w _ => σ w) ?_ ?_ ?_
  · intro w hw
    rw [Finset.mem_filter] at hw ⊢
    exact ⟨Finset.mem_univ _, hw.2⟩
  · intro w1 _ w2 _ heq
    exact σ.injective heq
  · intro j hj
    rw [Finset.mem_filter] at hj
    refine ⟨σ.symm j, ?_, by simp⟩
    rw [Finset.mem_filter]
    refine ⟨Finset.mem_univ _, ?_⟩
    simpa using hj.2

lemma entryQ_out_of_row (m : List (List GoFloat)) (cols : ℕ)
    (hv : ∀ row ∈ m, row.length = cols) (i j : ℕ) (hj : cols ≤ j) :
    entryQ m i j = 0 := by
  unfold entryQ
  cases hm : m[i]? with
  | none => rfl
  | some row =>
    have hrow : row ∈ m := List.getElem?_mem hm
    have hnone : row[j]? = none := by
      rw [List.getElem?_eq_none_iff, hv row hrow]
      exact hj
    simp [hnone]

lemma resAt_map_finRange (k : ℕ) (f : Fin k → ℤ) (i : ℕ) (hi : i < k) :
    resAt ((List.finRange k).map f) i = f ⟨i, hi⟩ := by
  unfold resAt
  rw [List.getElem?_map]
  rw [List.getElem?_eq_getElem (by rw [List.length_finRange]; exact hi)]
  rw [List.getElem_finRange]
  rfl

lemma list_eq_map_resAt (a : List ℤ) :
    a = (List.finRange a.length).map fun w => resAt a w.val := by
  conv_lhs => rw [← List.ofFn_get a]
  rw [List.ofFn_eq_map]
  refine List.map_congr_left fun w _ => ?_
  unfold resAt
  rw [List.getElem?_eq_getElem w.isLt]
  rfl

/-- The list-level validity of the worker-indexed result built from a
permutation of the padded indices. -/
lemma result_spec (k cols : ℕ) (hcols : cols ≤ k) (σ : Equiv.Perm (Fin k)) (r : List ℤ)
    (hr : r = (List.finRange k).map
      (fun w => if ((σ w).val : ℤ) ≥ (cols : ℤ) then -1 else ((σ w).val : ℤ))) :
    r.length = k ∧ (∀ x ∈ r, x = -1 ∨ (0 ≤ x ∧ x < (cols : ℤ))) ∧
      (r.filter fun x => x != -1).Nodup ∧
      (r.filter fun x => x == -1).length = k - cols := by
  subst hr
  set f : Fin k → ℤ :=
    fun w => if ((σ w).val : ℤ) ≥ (cols : ℤ) then -1 else ((σ w).val : ℤ) with hf
  have hval : ∀ w : Fin k, f w = -1 ∨ (f w = ((σ w).val : ℤ) ∧ ((σ w).val : ℤ) < (cols : ℤ)) := by
    intro w
    by_cases hge : ((σ w).val : ℤ) ≥ (cols : ℤ)
    · left
      simp only [hf]
      rw [if_pos hge]
    · right
      refine ⟨?_, by omega⟩
      simp only [hf]
      rw [if_neg hge]
  have hfneg : ∀ w : Fin k, f w = -1 ↔ (cols : ℤ) ≤ ((σ w).val : ℤ) := by
    intro w
    by_cases hge : ((σ w).val : ℤ) ≥ (cols : ℤ)
    · constructor
      · intro _
        exact hge
      · intro _
        simp only [hf]
        rw [if_pos hge]
    · constructor
      · intro hw
        exfalso
        simp only [hf] at hw
        rw [if_neg hge] at hw
        exact coe_val_ne_neg_one (σ w) hw
      · intro hcon
        exact absurd hcon hge
  refine ⟨by rw [List.length_map, List.length_finRange], ?_, ?_, ?_⟩
  · intro x hx
    obtain ⟨w, _, rfl⟩ := List.mem_map.mp hx
    rcases hval w with hl | ⟨he, hlt⟩
    · exact Or.inl hl
    · right
      rw [he]
      exact ⟨by positivity, hlt⟩
  · rw [List.filter_map]
    refine List.Nodup.map_on ?_ (List.Nodup.filter _ (List.nodup_finRange k))
    intro x hx y hy hxy
    rw [List.mem_filter] at hx hy
    have hx2 : f x ≠ -1 := by simpa using hx.2
    have hy2 : f y ≠ -1 := by simpa using hy.2
    rcases hval x with hlx | ⟨hex, _⟩
    · exact absurd hlx hx2
    · rcases hval y with hly | ⟨hey, _⟩
      · exact absurd hly hy2
      · rw [hex, hey] at hxy
        exact σ.injective (coe_val_inj hxy)
  · rw [length_filter_map_finRange]
    have hsets : (Finset.univ.filter fun w => (f w == -1) = true) =
        (Finset.univ.filter fun w => (cols ≤ ((σ w).val : ℤ))) := by
      ext w
      rw [Finset.mem_filter, Finset.mem_filter]
      constructor
      · rintro ⟨_, hw⟩
        rw [beq_iff_eq] at hw
        exact ⟨Finset.mem_univ _, by exact_mod_cast (hfneg w).mp hw⟩
      · rintro ⟨_, hw⟩
        refine ⟨Finset.mem_univ _, ?_⟩
        rw [beq_iff_eq]
        exact (hfneg w).mpr (by exact_mod_cast hw)
    rw [hsets]
    have hcast : (Finset.univ.filter fun w => (cols ≤ ((σ w).val : ℤ))) =
        (Finset.univ.filter fun w => cols ≤ (σ w).val) := by
      ext w
      rw [Finset.mem_filter, Finset.mem_filter]
      constructor
      · rintro ⟨_, hw⟩
        exact ⟨Finset.mem_univ _, by exact_mod_cast hw⟩
      · rintro ⟨_, hw⟩
        exact ⟨Finset.mem_univ _, by exact_mod_cast hw⟩
    rw [hcast, card_filter_comp_perm k σ (fun j : Fin k => cols ≤ j.val),
      card_filter_ge k cols hcols]

/-- The assigned cost of the returned list equals the padded-matrix cost of
its permutation. -/
lemma assignedCost_result (m : List (List GoFloat)) (k cols : ℕ) (_hcols : cols ≤ k)
    (hv : ∀ row ∈ m, row.length = cols)
    (σ : Equiv.Perm (Fin k)) (r : List ℤ)
    (hr : r = (List.finRange k).map
      (fun w => if ((σ w).val : ℤ) ≥ (cols : ℤ) then -1 else ((σ w).val : ℤ))) :
    assignedCost m r = ∑ w : Fin k, entryQ m w.val ((σ w).val) := by
  subst hr
  unfold assignedCost
  rw [List.length_map, List.length_finRange, ← Fin.sum_univ_eq_sum_range]
  refine Finset.sum_congr rfl fun w _ => ?_
  rw [resAt_map_finRange k _ w.val w.isLt]
  rw [Fin.eta]
  by_cases hge : ((σ w).val : ℤ) ≥ (cols : ℤ)
  · rw [if_pos hge, if_pos rfl]
    rw [entryQ_out_of_row m cols hv w.val ((σ w).val) (by exact_mod_cast hge)]
  · rw [if_neg hge, if_neg (coe_val_ne_neg_one (σ w))]
    congr 1

/-- A valid worker-indexed assignment extends to a permutation of the padded
indices with the same assigned cost: unassigned workers are matched to the
zero-cost padding jobs. -/
lemma valid_extension (m : List (List GoFloat)) (k cols : ℕ) (hcols : cols ≤ k)
    (hv : ∀ row ∈ m, row.length = cols)
    (a : List ℤ) (ha : ValidAssignment k cols a) :
    ∃ τ : Equiv.Perm (Fin k),
      assignedCost m a = ∑ w : Fin k, entryQ m w.val ((τ w).val) := by
  obtain ⟨hlen, hbound, hnodup, hcount⟩ := ha
  subst hlen
  have hmap := list_eq_map_resAt a
  have hresAt_mem : ∀ w : Fin a.length, resAt a w.val = -1 ∨
      (0 ≤ resAt a w.val ∧ resAt a w.val < (cols : ℤ)) := by
    intro w
    have hmem : resAt a w.val ∈ a := by
      unfold resAt
      rw [List.getElem?_eq_getElem w.isLt]
      exact List.getElem_mem _
    exact hbound _ hmem
  have hinj_val : ∀ w1 w2 : Fin a.length, resAt a w1.val ≠ -1 →
      resAt a w1.val = resAt a w2.val → w1 = w2 := by
    intro w1 w2 hne heq
    rw [hmap, List.filter_map,
      List.nodup_map_iff_inj_on (List.Nodup.filter _ (List.nodup_finRange _))] at hnodup
    refine hnodup w1 ?_ w2 ?_ heq
    · rw [List.mem_filter]
      refine ⟨List.mem_finRange w1, ?_⟩
      show (resAt a w1.val != -1) = true
      simpa using hne
    · rw [List.mem_filter]
      refine ⟨List.mem_finRange w2, ?_⟩
      show (resAt a w2.val != -1) = true
      rw [← heq]
      simpa using hne
  have hcardU : (Finset.univ.filter fun w : Fin a.length => resAt a w.val = -1).card =
      a.length - cols := by
    have h1 : (a.filter fun x => x == -1).length =
        (Finset.univ.filter fun w : Fin a.length => ((resAt a w.val == -1) = true)).card := by
      conv_lhs => rw [hmap]
      exact length_filter_map_finRange _ _ _
    rw [h1] at hcount
    rw [← hcount]
    congr 1
    ext w
    simp [beq_iff_eq]
  have hcardP : (Finset.univ.filter fun j : Fin a.length => cols ≤ j.val).card =
      a.length - cols := card_filter_ge _ cols hcols
  have hcards : Fintype.card
      ((Finset.univ.filter fun w : Fin a.length => resAt a w.val = -1) : Finset (Fin a.length)) =
      Fintype.card
      ((Finset.univ.filter fun j : Fin a.length => cols ≤ j.val) : Finset (Fin a.length)) := by
    rw [Fintype.card_coe, Fintype.card_coe, hcardU, hcardP]
  have e := Fintype.equivOfCardEq hcards
  have hmemU : ∀ w : Fin a.length, resAt a w.val = -1 →
      w ∈ (Finset.univ.filter fun w : Fin a.length => resAt a w.val = -1) := by
    intro w hw
    rw [Finset.mem_filter]
    exact ⟨Finset.mem_univ _, hw⟩
  have hF_bound : ∀ (w : Fin a.length), resAt a w.val ≠ -1 →
      (resAt a w.val).toNat < a.length := by
    intro w hw
    rcases hresAt_mem w with hl | ⟨h0, hlt⟩
    · exact absurd hl hw
    · omega
  classical
  set F : Fin a.length → Fin a.length := fun w =>
    if hw : resAt a w.val = -1 then ((e ⟨w, hmemU w hw⟩ : _) : Fin a.length)
    else ⟨(resAt a w.val).toNat, hF_bound w hw⟩ with hF
  have hFpad : ∀ (w : Fin a.length) (hw : resAt a w.val = -1), cols ≤ (F w).val := by
    intro w hw
    have hp := (e ⟨w, hmemU w hw⟩).2
    rw [Finset.mem_filter] at hp
    simp only [hF]
    rw [dif_pos hw]
    exact hp.2
  have hFval : ∀ (w : Fin a.length) (hw : ¬ resAt a w.val = -1),
      ((F w).val : ℤ) = resAt a w.val := by
    intro w hw
    simp only [hF]
    rw [dif_neg hw]
    rcases hresAt_mem w with hl | ⟨h0, _⟩
    · exact absurd hl hw
    · exact Int.toNat_of_nonneg h0
  have hFinj : Function.Injective F := by
    intro w1 w2 heq
    by_cases h1 : resAt a w1.val = -1
    · by_cases h2 : resAt a w2.val = -1
      · simp only [hF] at heq
        rw [dif_pos h1, dif_pos h2] at heq
        have h3 := e.injective (Subtype.coe_injective heq)
        exact congrArg Subtype.val h3
      · exfalso
        have hge := hFpad w1 h1
        rw [heq] at hge
        have hlt : ((F w2).val : ℤ) = resAt a w2.val := hFval w2 h2
        rcases hresAt_mem w2 with hl | ⟨h0, hsmall⟩
        · exact h2 hl
        · omega
    · by_cases h2 : resAt a w2.val = -1
      · exfalso
        have hge := hFpad w2 h2
        rw [← heq] at hge
        have hlt : ((F w1).val : ℤ) = resAt a w1.val := hFval w1 h1
        rcases hresAt_mem w1 with hl | ⟨h0, hsmall⟩
        · exact h1 hl
        · omega
      · have hv1 := hFval w1 h1
        have hv2 := hFval w2 h2
        rw [heq] at hv1
        rw [hv2] at hv1
        exact hinj_val w1 w2 h1 (by omega)
  refine ⟨Equiv.ofBijective F (Finite.injective_iff_bijective.mp hFinj), ?_⟩
  unfold assignedCost
  rw [← Fin.sum_univ_eq_sum_range]
  refine Finset.sum_congr rfl fun w _ => ?_
  have hτ : (Equiv.ofBijective F (Finite.injective_iff_bijective.mp hFinj)) w = F w := rfl
  rw [hτ]
  by_cases hw : resAt a w.val = -1
  · rw [if_pos hw]
    rw [entryQ_out_of_row m cols hv w.val (F w).val (hFpad w hw)]
  · rw [if_neg hw]
    congr 1
    have := hFval w hw
    omega

/-! ## Error-path inversion -/

lemma checkEntries_some (l : List GoFloat) (e : ConstructError)
    (h : checkEntries l = some e) :
    (e = .infiniteCost ∧ ∃ c ∈ l, c.isInf = true) ∨
      (e = .nanCost ∧ ∃ c ∈ l, c.isNaN = true) := by
  induction l with
  | nil => exact absurd h (by simp [checkEntries])
  | cons c cs ih =>
    unfold checkEntries at h
    by_cases hinf : c.isInf = true
    · rw [if_pos hinf] at h
      injection h with h'
      exact Or.inl ⟨h'.symm, c, List.mem_cons_self _ _, hinf⟩
    · rw [if_neg hinf] at h
      by_cases hnan : c.isNaN = true
      · rw [if_pos hnan] at h
        injection h with h'
        exact Or.inr ⟨h'.symm, c, List.mem_cons_self _ _, hnan⟩
      · rw [if_neg hnan] at h
        rcases ih h with ⟨he, c', hc', hp⟩ | ⟨he, c', hc', hp⟩
        · exact Or.inl ⟨he, c', List.mem_cons_of_mem _ hc', hp⟩
        · exact Or.inr ⟨he, c', List.mem_cons_of_mem _ hc', hp⟩

lemma checkRow_some (cols : ℕ) (row : List GoFloat) (e : ConstructError)
    (h : checkRow cols row = some e) :
    (e = .irregularCostMatrix ∧ row.length ≠ cols) ∨ checkEntries row = some e := by
  unfold checkRow at h
  by_cases hl : row.length ≠ cols
  · rw [if_pos hl] at h
    injection h with h'
    exact Or.inl ⟨h'.symm, hl⟩
  · rw [if_neg hl] at h
    exact Or.inr h

lemma validateRows_some (cols : ℕ) (m : List (List GoFloat)) (e : ConstructError)
    (h : validateRows cols m = some e) :
    ∃ row ∈ m, checkRow cols row = some e := by
  induction m with
  | nil => exact absurd h (by simp [validateRows])
  | cons r rs ih =>
    unfold validateRows at h
    cases hcr : checkRow cols r with
    | some e' =>
      rw [hcr] at h
      injection h with h'
      exact ⟨r, List.mem_cons_self _ _, by rw [hcr, h']⟩
    | none =>
      rw [hcr] at h
      obtain ⟨row, hrow, hc⟩ := ih h
      exact ⟨row, List.mem_cons_of_mem _ hrow, hc⟩

lemma new_error_inv (m : List (List GoFloat)) (e : ConstructError)
    (he : NewHungarianAlgorithm m = .error e) (hne : e ≠ .panicIndexOutOfRange) :
    validateRows m.headI.length m = some e := by
  match m with
  | [] =>
    exfalso
    apply hne
    injection he with h'
    exact h'.symm
  | row0 :: rest =>
    unfold NewHungarianAlgorithm at he
    simp only at he
    cases hv : validateRows row0.length (row0 :: rest) with
    | some e' =>
      rw [hv] at he
      injection he with h'
      rw [← h']
      exact hv
    | none =>
      rw [hv] at he
      by_cases hlt : (row0 :: rest).length < max (row0 :: rest).length row0.length
      · rw [if_pos hlt] at he
        injection he with h'
        exact absurd h'.symm hne
      · rw [if_neg hlt] at he
        exact absurd he (by simp)

/-! ## The claims -/

/-- C1: for every cost matrix on which construction succeeds, `Execute`
returns a matching whose total assigned cost (summed against the input
matrix over workers with a non-`-1` assignment) is at most the cost of every
assignment obeying the unassignment-cardinality rules (distinct jobs below
`cols`, exactly `rows - cols` unassigned workers). -/
theorem C1_optimality (m : List (List GoFloat)) (k : ℕ) (h : HungarianAlgorithm k)
    (hok : NewHungarianAlgorithm m = .ok ⟨k, h⟩) :
    ∃ r : List ℤ, Execute h = some r ∧
      ∀ a : List ℤ, ValidAssignment h.rows h.cols a →
        assignedCost m r ≤ assignedCost m a := by
  obtain ⟨σ, r, hr, hform, hopt⟩ := Execute_master m k h hok
  have hok' := newOk_of_ok m k h hok
  have hrows : h.rows = k := by rw [hok'.rows_eq, ← hok'.n_eq]
  have hvrows : ∀ row ∈ m, row.length = h.cols := validateRows_length h.cols m hok'.valid
  have hcostr := assignedCost_result m k h.cols hok'.cols_le hvrows σ r hform
  refine ⟨r, hr, ?_⟩
  intro a ha
  rw [hrows] at ha
  obtain ⟨τ, hτ⟩ := valid_extension m k h.cols hok'.cols_le hvrows a ha
  rw [hcostr, hτ]
  exact hopt τ

/-- C1 witness: on the 3×3 scenario matrix the returned matching costs no
more than the identity assignment. -/
theorem C1_witness :
    ∃ r : List ℤ, Execute demoSquareState = some r ∧
      (ValidAssignment demoSquareState.rows demoSquareState.cols [0, 1, 2] ∧
        assignedCost demoSquare r ≤ assignedCost demoSquare [0, 1, 2]) := by
  obtain ⟨r, hr, hopt⟩ := C1_optimality demoSquare 3 demoSquareState rfl
  have hvalid : ValidAssignment demoSquareState.rows demoSquareState.cols [0, 1, 2] := by
    unfold ValidAssignment
    decide
  exact ⟨r, hr, hvalid, hopt [0, 1, 2] hvalid⟩

/-- C2: the claim says every matrix with `0 < rows < cols` is accepted; on
the code, `[[0, 0]]` (one row, two columns) makes the copy loop read
`costMatrix[1]` out of range because its guard is `w > len(costMatrix)`
rather than `>=`, a runtime panic. -/
theorem C2_rows_lt_cols_panics :
    NewHungarianAlgorithm [[.finite 0, .finite 0]] = .error .panicIndexOutOfRange := rfl

/-- C3: the claim says a zero-row matrix is accepted; on the code, `[]`
panics at `len(costMatrix[0])`.  The one-row zero-column part of the claim
does hold: `[[]]` is accepted and yields `[-1]`. -/
theorem C3_empty_matrix :
    NewHungarianAlgorithm ([] : List (List GoFloat)) = .error .panicIndexOutOfRange ∧
      ∃ h : HungarianAlgorithm 1,
        NewHungarianAlgorithm [([] : List GoFloat)] = .ok ⟨1, h⟩ ∧
          Execute h = some [-1] := by
  refine ⟨rfl, ?_⟩
  refine ⟨{ rows := 1
            cols := 0
            costMatrix := fun w j => entryQ [([] : List GoFloat)] w.val j.val
            labelByWorker := fun _ => 0
            labelByJob := fun _ => 0
            minSlackWorkerByJob := fun _ => 0
            minSlackValueByJob := fun _ => 0
            matchJobByWorker := fun _ => -1
            matchWorkerByJob := fun _ => -1
            parentWorkerByCommittedJob := fun _ => 0
            committedWorkers := fun _ => false }, rfl, ?_⟩
  obtain ⟨σ, r, hr, hform, _⟩ := Execute_master [([] : List GoFloat)] 1 _ rfl
  have hr1 : r = [-1] := by
    rw [hform]
    have h1 : List.finRange 1 = [0] := by decide
    rw [h1, List.map_cons, List.map_nil]
    show [if ((σ 0).val : ℤ) ≥ ((0 : ℕ) : ℤ) then (-1 : ℤ) else ((σ 0).val : ℤ)] = [-1]
    have hcond : ((σ 0).val : ℤ) ≥ ((0 : ℕ) : ℤ) := by
      exact_mod_cast Nat.zero_le (σ 0).val
    rw [if_pos hcond]
  rw [hr1] at hr
  exact hr

/-- C4 counterexample: a matrix whose second row's length differs from the
first row's, yet construction reports `InfiniteCost`, not
`IrregularCostMatrix` — the first violation in row-major scan order wins,
refuting the claim's "exactly when". -/
theorem C4_counterexample :
    NewHungarianAlgorithm [[.posInf, .finite 1], [.finite 2]] = .error .infiniteCost ∧
      ([GoFloat.finite 2] : List GoFloat).length ≠
        ([GoFloat.posInf, GoFloat.finite 1] : List GoFloat).length ∧
      ConstructError.infiniteCost ≠ ConstructError.irregularCostMatrix :=
  ⟨rfl, by decide, by decide⟩

/-- C4 amended: each error kind is reported only when a corresponding
violation exists (`IrregularCostMatrix` for a row-length mismatch against
the first row, `InfiniteCost` for an infinite entry, `NaNCost` for a NaN
entry); a successful construction has no violation at all (so the first
violation in scan order determines the reported error); and the three error
values are distinguishable, carrying pairwise distinct messages. -/
theorem C4_first_violation :
    (∀ (m : List (List GoFloat)) (e : ConstructError),
      NewHungarianAlgorithm m = .error e →
        (e = .irregularCostMatrix → ∃ row ∈ m, row.length ≠ m.headI.length) ∧
        (e = .infiniteCost → ∃ row ∈ m, ∃ c ∈ row, c.isInf = true) ∧
        (e = .nanCost → ∃ row ∈ m, ∃ c ∈ row, c.isNaN = true)) ∧
    (∀ (m : List (List GoFloat)) (k : ℕ) (h : HungarianAlgorithm k),
      NewHungarianAlgorithm m = .ok ⟨k, h⟩ →
        ∀ row ∈ m, row.length = m.headI.length ∧
          ∀ c ∈ row, c.isInf = false ∧ c.isNaN = false) ∧
    (∀ e1 e2 : ConstructError, e1.message = e2.message → e1 = e2) := by
  refine ⟨?_, ?_, ?_⟩
  · intro m e he
    refine ⟨?_, ?_, ?_⟩
    · rintro rfl
      have hv := new_error_inv m _ he (by decide)
      obtain ⟨row, hrow, hcr⟩ := validateRows_some _ _ _ hv
      rcases checkRow_some _ _ _ hcr with ⟨_, hne⟩ | hce
      · exact ⟨row, hrow, hne⟩
      · rcases checkEntries_some _ _ hce with ⟨hcon, _⟩ | ⟨hcon, _⟩ <;> cases hcon
    · rintro rfl
      have hv := new_error_inv m _ he (by decide)
      obtain ⟨row, hrow, hcr⟩ := validateRows_some _ _ _ hv
      rcases checkRow_some _ _ _ hcr with ⟨hcon, _⟩ | hce
      · cases hcon
      · rcases checkEntries_some _ _ hce with ⟨_, c, hc, hp⟩ | ⟨hcon, _⟩
        · exact ⟨row, hrow, c, hc, hp⟩
        · cases hcon
    · rintro rfl
      have hv := new_error_inv m _ he (by decide)
      obtain ⟨row, hrow, hcr⟩ := validateRows_some _ _ _ hv
      rcases checkRow_some _ _ _ hcr with ⟨hcon, _⟩ | hce
      · cases hcon
      · rcases checkEntries_some _ _ hce with ⟨hcon, _⟩ | ⟨_, c, hc, hp⟩
        · cases hcon
        · exact ⟨row, hrow, c, hc, hp⟩
  · intro m k h hok
    have hok' := newOk_of_ok m k h hok
    intro row hrow
    have hcr := (validateRows_eq_none_iff h.cols m).mp hok'.valid row hrow
    rw [checkRow_eq_none_iff] at hcr
    refine ⟨by rw [hcr.1, hok'.cols_eq], ?_⟩
    exact (checkEntries_eq_none_iff row).mp hcr.2
  · intro e1 e2 h
    cases e1 <;> cases e2 <;> revert h <;> decide

/-- C4 witness: on an irregular matrix the reported `IrregularCostMatrix`
certifies a row whose length differs from the first row's. -/
theorem C4_witness :
    ∃ row ∈ [[GoFloat.finite 1], [GoFloat.finite 2, GoFloat.finite 3]],
      row.length ≠ [[GoFloat.finite 1], [GoFloat.finite 2, GoFloat.finite 3]].headI.length :=
  (C4_first_violation.1 [[.finite 1], [.finite 2, .finite 3]] .irregularCostMatrix rfl).1 rfl

/-- C5: on a square instance (`rows = cols`) the returned sequence is a
permutation of `[0, cols)`: full length, every entry a job index in range
(no `-1`), pairwise distinct. -/
theorem C5_square_perm (m : List (List GoFloat)) (k : ℕ) (h : HungarianAlgorithm k)
    (hok : NewHungarianAlgorithm m = .ok ⟨k, h⟩) (hsq : h.rows = h.cols) :
    ∃ r : List ℤ, Execute h = some r ∧ r.length = h.cols ∧
      (∀ x ∈ r, 0 ≤ x ∧ x < (h.cols : ℤ)) ∧ r.Nodup := by
  obtain ⟨σ, r, hr, hform, _⟩ := Execute_master m k h hok
  have hok' := newOk_of_ok m k h hok
  have hrows : h.rows = k := by rw [hok'.rows_eq, ← hok'.n_eq]
  have hcolsk : h.cols = k := by rw [← hsq, hrows]
  have hform' : r = (List.finRange k).map fun w => ((σ w).val : ℤ) := by
    rw [hform]
    refine List.map_congr_left fun w _ => ?_
    rw [if_neg ?_]
    rw [hcolsk]
    push_neg
    exact_mod_cast (σ w).isLt
  refine ⟨r, hr, ?_, ?_, ?_⟩
  · rw [hform', List.length_map, List.length_finRange, hcolsk]
  · intro x hx
    rw [hform'] at hx
    obtain ⟨w, _, rfl⟩ := List.mem_map.mp hx
    refine ⟨by positivity, ?_⟩
    rw [hcolsk]
    exact_mod_cast (σ w).isLt
  · rw [hform']
    refine List.Nodup.map ?_ (List.nodup_finRange k)
    intro w1 w2 heq
    exact σ.injective (coe_val_inj heq)

/-- C5 witness: the square scenario matrix. -/
theorem C5_witness :
    demoSquareState.rows = demoSquareState.cols ∧
      ∃ r : List ℤ, Execute demoSquareState = some r ∧ r.length = demoSquareState.cols ∧
        (∀ x ∈ r, 0 ≤ x ∧ x < (demoSquareState.cols : ℤ)) ∧ r.Nodup :=
  ⟨rfl, C5_square_perm demoSquare 3 demoSquareState rfl rfl⟩

/-- C6: with more workers than jobs, the result has length `rows`, exactly
`rows - cols` entries equal to `-1`, and the remaining entries are pairwise
distinct job indices in `[0, cols)`. -/
theorem C6_more_workers (m : List (List GoFloat)) (k : ℕ) (h : HungarianAlgorithm k)
    (hok : NewHungarianAlgorithm m = .ok ⟨k, h⟩) (_hgt : h.cols < h.rows) :
    ∃ r : List ℤ, Execute h = some r ∧ r.length = h.rows ∧
      (r.filter fun x => x == -1).length = h.rows - h.cols ∧
      (r.filter fun x => x != -1).Nodup ∧
      ∀ x ∈ r, x ≠ -1 → 0 ≤ x ∧ x < (h.cols : ℤ) := by
  obtain ⟨σ, r, hr, hform, _⟩ := Execute_master m k h hok
  have hok' := newOk_of_ok m k h hok
  have hrows : h.rows = k := by rw [hok'.rows_eq, ← hok'.n_eq]
  obtain ⟨hlen, hmem, hnodup, hcount⟩ := result_spec k h.cols hok'.cols_le σ r hform
  refine ⟨r, hr, by rw [hlen, hrows], by rw [hcount, hrows], hnodup, ?_⟩
  intro x hx hne
  rcases hmem x hx with hl | hb
  · exact absurd hl hne
  · exact hb

/-- C6 witness: the 5×4 scenario matrix with an all-zero fifth row. -/
theorem C6_witness :
    demoTallState.cols < demoTallState.rows ∧
      ∃ r : List ℤ, Execute demoTallState = some r ∧ r.length = demoTallState.rows ∧
        (r.filter fun x => x == -1).length = demoTallState.rows - demoTallState.cols ∧
        (r.filter fun x => x != -1).Nodup ∧
        ∀ x ∈ r, x ≠ -1 → 0 ≤ x ∧ x < (demoTallState.cols : ℤ) :=
  ⟨by decide, C6_more_workers demoTall 5 demoTallState rfl (by decide)⟩

/-- C7: on every constructed instance, `Execute` terminates with no failure
path and returns a result of length `rows`; the fuel `dim + 1` given to the
outer loop (at most `dim` phases, each strictly growing the matching) and to
each phase's inner loop is never exhausted. -/
theorem C7_terminates (m : List (List GoFloat)) (k : ℕ) (h : HungarianAlgorithm k)
    (hok : NewHungarianAlgorithm m = .ok ⟨k, h⟩) :
    ∃ r : List ℤ, Execute h = some r ∧ r.length = h.rows := by
  obtain ⟨σ, r, hr, hform, _⟩ := Execute_master m k h hok
  have hok' := newOk_of_ok m k h hok
  have hrows : h.rows = k := by rw [hok'.rows_eq, ← hok'.n_eq]
  refine ⟨r, hr, ?_⟩
  rw [hform, List.length_map, List.length_finRange]
  exact hrows.symm

/-- C7 witness: the 5×4 scenario instance. -/
theorem C7_witness :
    ∃ r : List ℤ, Execute demoTallState = some r ∧ r.length = demoTallState.rows :=
  C7_terminates demoTall 5 demoTallState rfl

/-- C8: dual feasibility (`labelByWorker[w] + labelByJob[j] ≤ cost[w][j]`)
holds immediately after `computeInitialFeasibleSolution` (as called by
`Execute`, after `reduce`), and it is preserved by every `updateLabeling`
call `Execute` performs: such a call happens exactly when the minimum-slack
scan returns a positive slack in a state satisfying the phase invariant, and
the relabelled state is again dual feasible. -/
theorem C8_dual_feasibility :
    (∀ (m : List (List GoFloat)) (k : ℕ) (h : HungarianAlgorithm k),
      NewHungarianAlgorithm m = .ok ⟨k, h⟩ →
        DualFeasible h.reduce.computeInitialFeasibleSolution) ∧
    (∀ (k : ℕ) (s : HungarianAlgorithm k) (mw : ℤ) (mj : Fin k) (mv : ℚ),
      PhaseInv s → s.findMinSlack = some (mw, mj, mv) → 0 < mv →
        DualFeasible (s.updateLabeling mv)) := by
  constructor
  · intro m k h hok
    have hok' := newOk_of_ok m k h hok
    exact (cifs_GInv h.reduce (by rw [reduce_labelByWorker, hok'.lw_eq])
      (by rw [reduce_matchJobByWorker, hok'.mjw_eq])
      (by rw [reduce_matchWorkerByJob, hok'.mwj_eq])).feas
  · intro k s mw mj mv hp hfms hpos
    obtain ⟨w₀, _, hp1, _⟩ :=
      relabel_spec s hp mw mj mv hfms (s.updateLabeling mv) (by rw [if_pos hpos])
    exact hp1.g.feas

/-- C8 witness: the scenario instance after initialization, and a concrete
mid-phase state whose positive-slack relabeling keeps feasibility. -/
theorem C8_witness :
    DualFeasible demoSquareState.reduce.computeInitialFeasibleSolution ∧
      DualFeasible (demoPhaseState.updateLabeling 5) := by
  constructor
  · exact C8_dual_feasibility.1 demoSquare 3 demoSquareState rfl
  · refine C8_dual_feasibility.2 1 demoPhaseState 0 0 5 ?_ rfl (by norm_num)
    refine ⟨⟨⟨?_, ?_, ?_, ?_⟩, ?_, ?_⟩, ?_, ?_, ?_, ?_, ?_, ?_, ?_⟩
    · intro w
      exact Or.inl rfl
    · intro j
      exact Or.inl rfl
    · intro w j hc
      exact absurd hc.symm (coe_val_ne_neg_one j)
    · intro j w hc
      exact absurd hc.symm (coe_val_ne_neg_one w)
    · intro w j
      show (0 : ℚ) + 0 ≤ 5
      norm_num
    · intro w j hc
      exact absurd hc.symm (coe_val_ne_neg_one j)
    · intro j hj
      exact absurd rfl hj
    · intro j hj
      exact absurd rfl hj
    · intro w _
      exact Or.inl rfl
    · decide
    · intro j _
      refine ⟨0, rfl, rfl, ?_⟩
      show (5 : ℚ) - 0 - 0 = 5
      norm_num
    · intro j _ w _
      show (5 : ℚ) ≤ 5 - 0 - 0
      norm_num
    · exact ⟨fun _ => 0, fun j hj => absurd rfl hj, fun j hj => absurd rfl hj⟩

/-- C9: the row/column reduction is a pure optimization: the solver without
the `reduce` step also succeeds, and its matching has the same total cost on
the original matrix as the matching produced with reduction. -/
theorem C9_reduce_is_optimization (m : List (List GoFloat)) (k : ℕ)
    (h : HungarianAlgorithm k) (hok : NewHungarianAlgorithm m = .ok ⟨k, h⟩) :
    ∃ r r' : List ℤ, Execute h = some r ∧ ExecuteNoReduce h = some r' ∧
      assignedCost m r = assignedCost m r' := by
  obtain ⟨σ, r, hr, hform, hopt⟩ := Execute_master m k h hok
  obtain ⟨σ', r', hr', hform', hopt'⟩ := ExecuteNoReduce_master m k h hok
  have hok' := newOk_of_ok m k h hok
  have hvrows : ∀ row ∈ m, row.length = h.cols := validateRows_length h.cols m hok'.valid
  have hc1 := assignedCost_result m k h.cols hok'.cols_le hvrows σ r hform
  have hc2 := assignedCost_result m k h.cols hok'.cols_le hvrows σ' r' hform'
  refine ⟨r, r', hr, hr', ?_⟩
  rw [hc1, hc2]
  exact le_antisymm (hopt σ') (hopt' σ)

/-- C9 witness: the square scenario instance. -/
theorem C9_witness :
    ∃ r r' : List ℤ, Execute demoSquareState = some r ∧
      ExecuteNoReduce demoSquareState = some r' ∧
      assignedCost demoSquare r = assignedCost demoSquare r' :=
  C9_reduce_is_optimization demoSquare 3 demoSquareState rfl

/-- C10 counterexample: a rectangular all-finite matrix with a negative
entry on which construction does not return a nil error — it panics, because
`rows < cols` sends the copy loop out of range. -/
theorem C10_counterexample :
    NewHungarianAlgorithm [[.finite (-5), .finite 0]] = .error .panicIndexOutOfRange := rfl

/-- C10 amended: construction performs no lower-bound check: every nonempty
rectangular matrix with at least as many rows as columns whose entries are
all finite — arbitrarily negative included — is accepted. -/
theorem C10_no_lower_bound (row0 : List GoFloat) (rest : List (List GoFloat))
    (hrect : ∀ row ∈ row0 :: rest, row.length = row0.length)
    (hfin : ∀ row ∈ row0 :: rest, ∀ c ∈ row, c.isInf = false ∧ c.isNaN = false)
    (hle : row0.length ≤ (row0 :: rest).length) :
    ∃ h : HungarianAlgorithm (row0 :: rest).length,
      NewHungarianAlgorithm (row0 :: rest) = .ok ⟨(row0 :: rest).length, h⟩ := by
  refine new_ok_of_valid row0 rest ?_ hle
  rw [validateRows_eq_none_iff]
  intro row hrow
  rw [checkRow_eq_none_iff]
  exact ⟨hrect row hrow, (checkEntries_eq_none_iff row).mpr (hfin row hrow)⟩

/-- C10 witness: an all-negative 2×2 matrix is accepted. -/
theorem C10_witness :
    ∃ h : HungarianAlgorithm 2,
      NewHungarianAlgorithm
        [[.finite (-5), .finite (-1)], [.finite (-2), .finite (-7)]] = .ok ⟨2, h⟩ :=
  C10_no_lower_bound [.finite (-5), .finite (-1)] [[.finite (-2), .finite (-7)]]
    (by decide) (by decide) (by decide)

end HungarianAlgorithm

end Munkres
